import Mathlib

/-!
Verification of the object-manipulation utility module `src/util/object.ts`
(deep clone, deep freeze, structural equality, change-aware cloning, mixin,
circular-safe stringification, shallow diffing, keyword matchers).

Two shallow embeddings of the JavaScript value domain are used:

* a tree model (`Val`) for the functions that operate on acyclic values
  (`deepClone`, `equals`, `mixin`, `distinct`, `arrayToHash`,
  `createKeywordMatcher`).  Mapping/sequence/regexp nodes carry a numeric
  `id` modelling JavaScript reference identity (`===` on objects compares
  ids, never structure);

* a heap model (`JSVal`/`Heap`) for the functions whose behaviour on
  cyclic or shared object graphs is specified (`cloneAndChange`,
  `deepFreeze`, `safeStringify`).  Object nodes live in a finite
  association list indexed by ids, so cycles and sibling sharing are
  representable.

JavaScript machine integers/floats are modelled as `Int` (the claims under
study never depend on floating-point behaviour), and JavaScript exceptions
as `Except String`.  Functions whose JavaScript originals can diverge on
cyclic inputs (`cloneAndChange`, the `JSON.stringify` traversal) take a
fuel parameter; running out of fuel (`Option.none`) models stack
exhaustion.  `deepFreeze` is proved total outright (its termination on
arbitrary, possibly cyclic heaps is exactly what claim C3 asserts).
-/

namespace ObjectUtil

/-! ## Tree model of JavaScript values

`Val` is a plain JavaScript value: a primitive, a regular expression, an
ordered sequence (array) or a plain mapping (object literal).  Arrays,
objects and regexps carry the numeric identity of the underlying
reference.  `ValList` and `FieldList` are specialised lists so that all
recursions stay structural (kernel-reducible). -/

mutual
inductive Val where
  | vnull
  | vundef
  | vbool (b : Bool)
  | vnum (n : Int)
  | vstr (s : String)
  | vregexp (id : Nat)
  | varr (id : Nat) (elems : ValList)
  | vobj (id : Nat) (fields : FieldList)
  deriving DecidableEq
inductive ValList where
  | nil
  | cons (v : Val) (rest : ValList)
  deriving DecidableEq
inductive FieldList where
  | nil
  | cons (k : String) (v : Val) (rest : FieldList)
  deriving DecidableEq
end

open Val

/-- Strict equality `===` of JavaScript: primitives compare by value (and
type), object references (arrays, plain objects, regexps) compare by
reference identity, i.e. by id. -/
def jsEq : Val → Val → Bool
  | vnull, vnull => true
  | vundef, vundef => true
  | vbool a, vbool b => a == b
  | vnum a, vnum b => a == b
  | vstr a, vstr b => a == b
  | vregexp i, vregexp j => i == j
  | varr i _, varr j _ => i == j
  | vobj i _, vobj j _ => i == j
  | _, _ => false

/-- Result of the JavaScript `typeof` operator (`typeof null` is
`"object"`). -/
def typeofV : Val → String
  | vnull => "object"
  | vundef => "undefined"
  | vbool _ => "boolean"
  | vnum _ => "number"
  | vstr _ => "string"
  | vregexp _ => "object"
  | varr _ _ => "object"
  | vobj _ _ => "object"

/-- JavaScript truthiness: `null`, `undefined`, `false`, `0` and `""` are
falsy, everything else (including every object reference) is truthy. -/
def truthy : Val → Bool
  | vnull => false
  | vundef => false
  | vbool b => b
  | vnum n => n != 0
  | vstr s => s != ""
  | vregexp _ => true
  | varr _ _ => true
  | vobj _ _ => true

/-- Test of `Array.isArray`. -/
def isArrayV : Val → Bool
  | varr _ _ => true
  | _ => false

/-- Modelled from the spec: the external `Is` collaborator module
(`src/util/is.ts` is not part of the sources) supplies an
"is this value a plain mapping" predicate, per section 6 of the spec; a
plain mapping is a plain-object node (not an array, not a regexp, not a
primitive). -/
def isObjectLiteral : Val → Bool
  | vobj _ _ => true
  | _ => false

/-- Keys of a field list, in insertion order (the enumeration order of
`for-in` / `Object.keys` on a plain string-keyed object). -/
def keysOfF : FieldList → List String
  | .nil => []
  | .cons k _ rest => k :: keysOfF rest

/-- First binding of key `k`, if any (JavaScript objects cannot hold
duplicate keys, so the "first match" convention is unobservable). -/
def lookupField : FieldList → String → Option Val
  | .nil, _ => none
  | .cons k v rest, k' => if k = k' then some v else lookupField rest k'

/-- Property read `obj[k]` on a field list: a missing key reads as
`undefined`. -/
def getField (f : FieldList) (k : String) : Val :=
  (lookupField f k).getD vundef

/-- Membership of a key in a field list (the JavaScript `in` operator /
`hasOwnProperty` on plain objects). -/
def containsKey (f : FieldList) (k : String) : Bool :=
  (lookupField f k).isSome

/-- Enumerable own keys of a value, as read by the `for-in` loops of
`equals` (a regexp has no enumerable own properties). -/
def jsKeys : Val → List String
  | vobj _ f => keysOfF f
  | _ => []

/-- Property read on a value: only plain objects have readable fields
here; every other read yields `undefined`. -/
def getProp : Val → String → Val
  | vobj _ f, k => getField f k
  | _, _ => vundef

mutual
/-- Structural size of a value, used as the fuel budget for `equals`. -/
def vsize : Val → Nat
  | varr _ es => 1 + lsize es
  | vobj _ fs => 2 + fsize fs
  | _ => 1
def lsize : ValList → Nat
  | .nil => 0
  | .cons v rest => 1 + vsize v + lsize rest
def fsize : FieldList → Nat
  | .nil => 0
  | .cons _ v rest => 2 + vsize v + fsize rest
end

/-- Comparison of two characters by code point, as JavaScript compares
string elements (JavaScript uses UTF-16 code units; the two orders agree
on the Basic Multilingual Plane, which covers every key the claims
mention). -/
def charLtB (a b : Char) : Bool := a.toNat < b.toNat

/-- Lexicographic strict order on character lists (the order underlying
the default `Array.prototype.sort()` comparison of strings). -/
def listCharLtB : List Char → List Char → Bool
  | [], [] => false
  | [], _ :: _ => true
  | _ :: _, [] => false
  | a :: as, b :: bs => if a = b then listCharLtB as bs else charLtB a b

/-- Non-strict lexicographic string comparison used by the sort. -/
def strLeB (s t : String) : Bool := !(listCharLtB t.data s.data)

/-- Insertion of a string into a sorted list (helper of `sortStrings`). -/
def insertSorted (s : String) : List String → List String
  | [] => [s]
  | t :: rest => if strLeB s t then s :: t :: rest else t :: insertSorted s rest

/-- Sorting as performed by `Array.prototype.sort()` on an array of
strings: the result is the lexicographically sorted permutation of the
input (insertion sort is used here so that the kernel can evaluate it; the
sorted permutation of a list is unique, so the choice of algorithm is
unobservable). -/
def sortStrings : List String → List String
  | [] => []
  | s :: rest => insertSorted s (sortStrings rest)

/-- Packaging of a list of strings as a fresh JavaScript array value with
reference id `i` (the `oneKeys` / `otherKeys` arrays that `equals` builds
and then compares recursively). -/
def strArr (i : Nat) : List String → Val
  | ks => varr i (strListToValList ks)
where
  strListToValList : List String → ValList
    | [] => .nil
    | k :: rest => .cons (vstr k) (strListToValList rest)

/-- Length of a `ValList`. -/
def lengthL : ValList → Nat
  | .nil => 0
  | .cons _ rest => 1 + lengthL rest

/-!
Embedding of `equals` (object.ts lines 190-246).  The source recursion is
not structural (it recursively compares the freshly built key arrays), so
the Lean function takes a fuel argument; `equals` itself supplies the fuel
budget `vsize one + vsize other`, which the adequacy arguments in the
theorems below show is never exhausted.  The body of `equalsFuel` mirrors
the source line by line:

    if (one === other) return true
    if (one == null / undefined || other == null / undefined) return false
    if (typeof one !== typeof other) return false
    if (typeof one !== 'object') return false
    if (Array.isArray(one) !== Array.isArray(other)) return false
    arrays:  length check, then element-wise recursion;
    objects: collect keys of both sides, sort them, compare the two key
             arrays with a recursive equals call, then compare the values
             at each key in sorted order.
-/

/-- Pairwise conjunction of a comparison over two value lists; the
`nil`/`cons` mismatch cases realise the `one.length !== other.length`
check of the array branch, the `cons`/`cons` case its element loop. -/
def zipAllB (p : Val → Val → Bool) : ValList → ValList → Bool
  | .nil, .nil => true
  | .cons a ra, .cons b rb => p a b && zipAllB p ra rb
  | _, _ => false

/-- Fuelled recursion of `equals`; see the section comment above. -/
def equalsFuel : Nat → Val → Val → Bool
  | 0, _, _ => false
  | fuel + 1, one, other =>
    if jsEq one other then true
    else if jsEq one vnull || jsEq one vundef
         || jsEq other vnull || jsEq other vundef then false
    else if typeofV one != typeofV other then false
    else if typeofV one != "object" then false
    else if isArrayV one != isArrayV other then false
    else if isArrayV one then
      match one, other with
      | varr _ es, varr _ fs => zipAllB (fun a b => equalsFuel fuel a b) es fs
      | _, _ => false
    else
      let oneKeys := sortStrings (jsKeys one)
      let otherKeys := sortStrings (jsKeys other)
      if !(equalsFuel fuel (strArr 0 oneKeys) (strArr 1 otherKeys)) then false
      else oneKeys.all (fun k => equalsFuel fuel (getProp one k) (getProp other k))

/-- Embedding of `equals` (object.ts lines 190-246): deep structural
equality, with the fuel budget `vsize one + vsize other`. -/
def equals (one other : Val) : Bool :=
  equalsFuel (vsize one + vsize other) one other

/-!
Embedding of `deepClone` (object.ts lines 3-20).  Allocation of the fresh
`[]` / `{}` result is modelled by handing out the next free reference id
from a counter threaded through the traversal; the result object is
allocated before its children are cloned, exactly as in the source.
Regular expressions and primitives are returned by reference/value
unchanged.  The per-key test `obj[key] && typeof obj[key] === 'object'`
decides whether a child is recursed into or copied verbatim.
-/

mutual
/-- Embedding of `deepClone` (object.ts lines 3-20): clone of a value,
threading the next free reference id. -/
def deepClone : Val → Nat → Val × Nat
  | varr _ es, c =>
      let (es2, c2) := deepCloneL es (c + 1)
      (varr c es2, c2)
  | vobj _ fs, c =>
      let (fs2, c2) := deepCloneF fs (c + 1)
      (vobj c fs2, c2)
  | v, c => (v, c)
/-- Clone loop over the index keys of an array (`Object.keys(obj).forEach`
on an array visits the indices in order). -/
def deepCloneL : ValList → Nat → ValList × Nat
  | .nil, c => (.nil, c)
  | .cons v rest, c =>
      let (v2, c2) :=
        if truthy v && (typeofV v == "object") then deepClone v c else (v, c)
      let (rest2, c3) := deepCloneL rest c2
      (.cons v2 rest2, c3)
/-- Clone loop over the keys of a plain object. -/
def deepCloneF : FieldList → Nat → FieldList × Nat
  | .nil, c => (.nil, c)
  | .cons k v rest, c =>
      let (v2, c2) :=
        if truthy v && (typeofV v == "object") then deepClone v c else (v, c)
      let (rest2, c3) := deepCloneF rest c2
      (.cons k v2 rest2, c3)
end

mutual
/-- Reference ids of every object node (arrays, plain objects and regexps)
occurring in a value. -/
def allIds : Val → List Nat
  | vregexp i => [i]
  | varr i es => i :: allIdsL es
  | vobj i fs => i :: allIdsF fs
  | _ => []
/-- Ids occurring in a value list. -/
def allIdsL : ValList → List Nat
  | .nil => []
  | .cons v rest => allIds v ++ allIdsL rest
/-- Ids occurring in a field list. -/
def allIdsF : FieldList → List Nat
  | .nil => []
  | .cons _ v rest => allIds v ++ allIdsF rest
end

mutual
/-- Reference ids of every mapping/sequence node (arrays and plain
objects, _not_ regexps) occurring in a value. -/
def arrObjIds : Val → List Nat
  | varr i es => i :: arrObjIdsL es
  | vobj i fs => i :: arrObjIdsF fs
  | _ => []
/-- Mapping/sequence ids occurring in a value list. -/
def arrObjIdsL : ValList → List Nat
  | .nil => []
  | .cons v rest => arrObjIds v ++ arrObjIdsL rest
/-- Mapping/sequence ids occurring in a field list. -/
def arrObjIdsF : FieldList → List Nat
  | .nil => []
  | .cons _ v rest => arrObjIds v ++ arrObjIdsF rest
end

/-- Property assignment `obj[k] = v` on a field list: an existing binding
is overwritten in place (its position is preserved), a new key is appended
at the end, matching JavaScript property-creation order. -/
def updateField : FieldList → String → Val → FieldList
  | .nil, k, v => .cons k v .nil
  | .cons k0 v0 rest, k, v =>
      if k0 = k then .cons k0 v rest else .cons k0 v0 (updateField rest k v)

/-!
Embedding of `mixin` (object.ts lines 92-117).  The source mutates
`destination` in place and returns it; the embedding returns the mutated
value (note that the returned object keeps `destination`'s reference id).
`Object.keys(source).forEach` is modelled by folding over `source`'s
field list; the in-place recursive merge `mixin(destination[key],
source[key], overwrite)` becomes an update of `destination` at `key` with
the recursively merged value.
-/

mutual
/-- Embedding of `mixin` (object.ts lines 92-117). -/
def mixin (destination source : Val) (overwrite : Bool) : Val :=
  if !(isObjectLiteral destination) then source
  else
    match source with
    | vobj _ sf => mixinFields destination sf overwrite
    | _ => destination
/-- Fold of `mixin`'s `forEach` over the keys of `source`. -/
def mixinFields (destination : Val) : FieldList → Bool → Val
  | .nil, _ => destination
  | .cons k v rest, overwrite =>
      let d1 :=
        match destination with
        | vobj i df =>
            if containsKey df k then
              if overwrite then
                if isObjectLiteral (getField df k) && isObjectLiteral v then
                  vobj i (updateField df k (mixin (getField df k) v overwrite))
                else
                  vobj i (updateField df k v)
              else vobj i df
            else vobj i (updateField df k v)
        | d => d
      mixinFields d1 rest overwrite
end

/-- Assignment loop of `distinct` over the keys of `target` (object.ts
lines 265-273): `result[k] = target[k]` for every key whose value is not
deep-equal to `base[k]`. -/
def distinctLoop (base target : Val) : List String → FieldList → FieldList
  | [], acc => acc
  | k :: rest, acc =>
      let baseValue := getProp base k
      let targetValue := getProp target k
      if !(equals baseValue targetValue) then
        distinctLoop base target rest (updateField acc k targetValue)
      else
        distinctLoop base target rest acc

/-- Embedding of `distinct` (object.ts lines 258-276): the keys of
`target` whose values differ (by `equals`) from the corresponding values
of `base`, taken whole; an absent (falsy) input yields the empty
mapping. -/
def distinct (base target : Val) : FieldList :=
  if !(truthy base) || !(truthy target) then .nil
  else distinctLoop base target (jsKeys target) .nil

/-- Embedding of `arrayToHash` (object.ts lines 126-132): the mapping
from each array element to `true`, assignments performed left to right
(last one wins). -/
def arrayToHash : List String → FieldList :=
  loop .nil
where
  /-- Assignment loop `result[array[i]] = true`. -/
  loop (acc : FieldList) : List String → FieldList
    | [] => acc
    | s :: rest => loop (updateField acc s (vbool true)) rest

/-- Lower-casing of a character, as `String.prototype.toLowerCase()`
performs it on the ASCII range (the full Unicode case mapping agrees with
this on every word the claims mention). -/
def charToLower (c : Char) : Char :=
  if 65 ≤ c.toNat && c.toNat ≤ 90 then Char.ofNat (c.toNat + 32) else c

/-- Lower-casing of a string (`String.prototype.toLowerCase()`), ASCII
range. -/
def strToLower (s : String) : String := String.mk (s.data.map charToLower)

/-- Embedding of `createKeywordMatcher` (object.ts lines 138-160): the
word list is optionally lower-cased, turned into a hash once, and the
returned predicate tests `hash[word] !== undefined &&
hash.hasOwnProperty(word)`, lower-casing its argument in the
case-insensitive variant. -/
def createKeywordMatcher (arr : List String) (caseInsensitive : Bool) :
    String → Bool :=
  let arr2 := if caseInsensitive then arr.map (fun x => strToLower x) else arr
  let hash := arrayToHash arr2
  if caseInsensitive then
    fun word =>
      !(jsEq (getField hash (strToLower word)) vundef)
      && containsKey hash (strToLower word)
  else
    fun word =>
      !(jsEq (getField hash word) vundef) && containsKey hash word

/-! ## Induction principles

The three value types are mutually inductive, so the `induction` tactic
cannot be applied directly; these wrappers instantiate the mutual
recursors. -/

theorem fieldListInd {P : FieldList → Prop} (hn : P FieldList.nil)
    (hc : ∀ k v rest, P rest → P (FieldList.cons k v rest))
    (f : FieldList) : P f := by
  refine FieldList.rec (motive_1 := fun _ => True) (motive_2 := fun _ => True)
    (motive_3 := P) ?_ ?_ ?_ ?_ ?_ ?_ ?_ ?_ ?_ ?_ ?_ ?_ f <;> intros <;>
    first
      | exact trivial
      | exact hn
      | (apply hc; assumption)

theorem valListInd {P : ValList → Prop} (hn : P ValList.nil)
    (hc : ∀ v rest, P rest → P (ValList.cons v rest))
    (l : ValList) : P l := by
  refine ValList.rec (motive_1 := fun _ => True) (motive_3 := fun _ => True)
    (motive_2 := P) ?_ ?_ ?_ ?_ ?_ ?_ ?_ ?_ ?_ ?_ ?_ ?_ l <;> intros <;>
    first
      | exact trivial
      | exact hn
      | (apply hc; assumption)

theorem valMutualInd {P : Val → Prop} {Q : ValList → Prop}
    {R : FieldList → Prop}
    (h1 : P vnull) (h2 : P vundef) (h3 : ∀ b, P (vbool b))
    (h4 : ∀ n, P (vnum n)) (h5 : ∀ s, P (vstr s)) (h6 : ∀ i, P (vregexp i))
    (h7 : ∀ i es, Q es → P (varr i es))
    (h8 : ∀ i fs, R fs → P (vobj i fs))
    (h9 : Q ValList.nil)
    (h10 : ∀ v rest, P v → Q rest → Q (ValList.cons v rest))
    (h11 : R FieldList.nil)
    (h12 : ∀ k v rest, P v → R rest → R (FieldList.cons k v rest)) :
    (∀ v, P v) ∧ (∀ l, Q l) ∧ (∀ f, R f) :=
  ⟨fun v => Val.rec h1 h2 h3 h4 h5 h6 h7 h8 h9 h10 h11 h12 v,
   fun l => ValList.rec h1 h2 h3 h4 h5 h6 h7 h8 h9 h10 h11 h12 l,
   fun f => FieldList.rec h1 h2 h3 h4 h5 h6 h7 h8 h9 h10 h11 h12 f⟩

/-! ## Heap model of JavaScript object graphs

`cloneAndChange`, `deepFreeze` and `safeStringify` are specified on
cyclic and shared object graphs, which trees cannot represent.  Here a
value (`JSVal`) is a primitive or a reference into a heap: a finite
association list from ids to nodes.  A node is an array, a plain object
or a regexp, together with its `Object.isFrozen` flag. -/

inductive JSVal where
  | vnull
  | vundef
  | vbool (b : Bool)
  | vnum (n : Int)
  | vstr (s : String)
  | ref (id : Nat)
  deriving DecidableEq

inductive NodeContent where
  | arr (elems : List JSVal)
  | obj (fields : List (String × JSVal))
  | regexp
  deriving DecidableEq

/-- Heap node: content plus the `Object.isFrozen` mark. -/
structure Node where
  content : NodeContent
  frozen : Bool
  deriving DecidableEq

/-- Heap: a finite map from reference ids to nodes (first binding
wins). -/
abbrev Heap := List (Nat × Node)

/-- Lookup of a node by reference id. -/
def lookupH : Heap → Nat → Option Node
  | [], _ => none
  | (j, n) :: rest, i => if j = i then some n else lookupH rest i

/-- Loose-equality test `obj == null`, true exactly for `null` and
`undefined`. -/
def isNullish : JSVal → Bool
  | .vnull => true
  | .vundef => true
  | _ => false

/-- Modelled from the spec: heap-side `Is.array` of the external `Is`
collaborator module (`src/util/is.ts` is not among the sources; section 6
of the spec describes it as an "is this value an ordered sequence"
predicate): a reference to an array node. -/
def isArrayH (h : Heap) : JSVal → Bool
  | .ref i =>
      match lookupH h i with
      | some ⟨.arr _, _⟩ => true
      | _ => false
  | _ => false

/-- Modelled from the spec: heap-side `Is.objectLiteral` of the external
`Is` collaborator module ("is this value a plain mapping"): a reference
to a plain-object node. -/
def isObjectLiteralH (h : Heap) : JSVal → Bool
  | .ref i =>
      match lookupH h i with
      | some ⟨.obj _, _⟩ => true
      | _ => false
  | _ => false

/-! ## cloneAndChange

Embedding of `cloneAndChange` / `_cloneAndChange` (object.ts lines
44-86).  The result of a successful clone is a fresh tree (`CVal`): the
source builds brand-new arrays (`r1`) and objects (`r2`), so the output
of a terminating run is always acyclic even though the input heap need
not be.  The `encounteredObjects` stack is mutated push-before-recurse /
pop-after-recurse in the source, which is exactly the discipline of
passing the extended stack to the recursive calls on an object's values;
the fuel parameter models the JavaScript call stack (running out of fuel
models stack exhaustion on, e.g., cyclic arrays, which the source does
not detect). -/

inductive CVal where
  | leaf (v : JSVal)
  | carr (elems : List CVal)
  | cobj (fields : List (String × CVal))

/-- Fuelled embedding of `_cloneAndChange` (object.ts lines 48-86). -/
def cloneACFuel : Nat → Heap → (JSVal → Option JSVal) → JSVal → List Nat →
    Option (Except String CVal)
  | 0, _, _, _, _ => none
  | fuel + 1, h, changer, obj, enc =>
    if isNullish obj then some (Except.ok (CVal.leaf obj))
    else
      match changer obj with
      | some changed => some (Except.ok (CVal.leaf changed))
      | none =>
        if isArrayH h obj then
          match obj with
          | .ref i =>
            match lookupH h i with
            | some ⟨.arr elems, _⟩ =>
                let step := fun (acc : Option (Except String (List CVal)))
                    (e : JSVal) =>
                  match acc with
                  | some (Except.ok r1) =>
                    match cloneACFuel fuel h changer e enc with
                    | some (Except.ok c) => some (Except.ok (r1 ++ [c]))
                    | some (Except.error msg) => some (Except.error msg)
                    | none => none
                  | other => other
                match elems.foldl step (some (Except.ok [])) with
                | some (Except.ok r1) => some (Except.ok (CVal.carr r1))
                | some (Except.error msg) => some (Except.error msg)
                | none => none
            | _ => some (Except.ok (CVal.leaf obj))
          | _ => some (Except.ok (CVal.leaf obj))
        else if isObjectLiteralH h obj then
          match obj with
          | .ref i =>
            if enc.contains i then
              some (Except.error "Cannot clone recursive data-structure")
            else
              match lookupH h i with
              | some ⟨.obj fields, _⟩ =>
                  let enc2 := enc ++ [i]
                  let step := fun
                      (acc : Option (Except String (List (String × CVal))))
                      (kv : String × JSVal) =>
                    match acc with
                    | some (Except.ok r2) =>
                      match cloneACFuel fuel h changer kv.2 enc2 with
                      | some (Except.ok c) => some (Except.ok (r2 ++ [(kv.1, c)]))
                      | some (Except.error msg) => some (Except.error msg)
                      | none => none
                    | other => other
                  match fields.foldl step (some (Except.ok [])) with
                  | some (Except.ok r2) => some (Except.ok (CVal.cobj r2))
                  | some (Except.error msg) => some (Except.error msg)
                  | none => none
              | _ => some (Except.ok (CVal.leaf obj))
          | _ => some (Except.ok (CVal.leaf obj))
        else some (Except.ok (CVal.leaf obj))

/-- Embedding of `cloneAndChange` (object.ts lines 44-46): the recursion
is entered with an empty `encounteredObjects` stack. -/
def cloneAndChange (fuel : Nat) (h : Heap) (changer : JSVal → Option JSVal)
    (obj : JSVal) : Option (Except String CVal) :=
  cloneACFuel fuel h changer obj []

/-! ## deepFreeze

Embedding of `deepFreeze` (object.ts lines 24-42): breadth-first
traversal with a work queue, freezing the dequeued node and enqueueing
its enumerable own properties that are objects and not yet frozen.  The
definition is total by well-founded recursion — its acceptance by the
termination checker is precisely the claim that `deepFreeze` terminates
on every heap, cyclic ones included. -/

/-- Marking of node `i` as frozen (`Object.freeze(obj)`). -/
def setFrozen (h : Heap) (i : Nat) : Heap :=
  h.map (fun p => if p.1 = i then (p.1, ⟨p.2.content, true⟩) else p)

/-- Test whether id `i` refers to an unfrozen node. -/
def isUnfrozenAt (h : Heap) (i : Nat) : Bool :=
  match lookupH h i with
  | some n => !n.frozen
  | none => false

/-- Number of unfrozen heap entries, the primary termination measure. -/
def unfrozenCount (h : Heap) : Nat :=
  h.countP (fun p => !p.2.frozen)

/-- Values scanned by the `for (const key in obj)` loop of `deepFreeze`:
the enumerable own property values of the node. -/
def propValues : NodeContent → List JSVal
  | .arr es => es
  | .obj fs => fs.map (fun kv => kv.2)
  | .regexp => []

/-- Test `Object.isFrozen(prop)`: true for any non-object, for a frozen
node, and (vacuously) for a dangling reference. -/
def isFrozenVal (h : Heap) : JSVal → Bool
  | .ref i =>
      match lookupH h i with
      | some n => n.frozen
      | none => true
  | _ => true

/-- Test `typeof prop === 'object'` (`null` included). -/
def typeofIsObject : JSVal → Bool
  | .ref _ => true
  | .vnull => true
  | _ => false

/-- Ids pushed on the work queue when node `i` is scanned: its property
values that are objects and not yet frozen. -/
def freezeChildren (h : Heap) (i : Nat) : List Nat :=
  match lookupH h i with
  | some n =>
      ((propValues n.content).filter
        (fun v => typeofIsObject v && !isFrozenVal h v)).filterMap
        (fun v => match v with | .ref j => some j | _ => none)
  | none => []

/-- Position of the first queue entry whose node is still unfrozen (the
queue length if there is none), the secondary termination measure of the
freeze loop. -/
def firstUnfrozenIdx (h : Heap) (q : List Nat) : Nat :=
  q.findIdx (fun j => isUnfrozenAt h j)

theorem setFrozen_cons (p : Nat × Node) (rest : Heap) (i : Nat) :
    setFrozen (p :: rest) i =
      (if p.1 = i then (p.1, ⟨p.2.content, true⟩) else p) :: setFrozen rest i :=
  rfl

theorem unfrozenCount_cons (p : Nat × Node) (h : Heap) :
    unfrozenCount (p :: h) = unfrozenCount h + (if p.2.frozen then 0 else 1) := by
  simp only [unfrozenCount, List.countP_cons]
  cases hpf : p.2.frozen <;> simp [hpf]

theorem unfrozenCount_setFrozen_le (h : Heap) (i : Nat) :
    unfrozenCount (setFrozen h i) ≤ unfrozenCount h := by
  induction h with
  | nil => simp [setFrozen, unfrozenCount]
  | cons p rest ih =>
      obtain ⟨pk, pc, pf⟩ := p
      rw [setFrozen_cons, unfrozenCount_cons, unfrozenCount_cons]
      by_cases hpi : pk = i
      · cases pf <;> simp [hpi] <;> omega
      · cases pf <;> simp [hpi] <;> omega

theorem unfrozenCount_setFrozen_lt (h : Heap) (i : Nat)
    (hx : h.any (fun p => p.1 = i && !p.2.frozen) = true) :
    unfrozenCount (setFrozen h i) < unfrozenCount h := by
  induction h with
  | nil => simp at hx
  | cons p rest ih =>
      obtain ⟨pk, pc, pf⟩ := p
      have hle := unfrozenCount_setFrozen_le rest i
      simp only [List.any_cons, Bool.or_eq_true] at hx
      rw [setFrozen_cons, unfrozenCount_cons, unfrozenCount_cons]
      by_cases hpi : pk = i
      · cases hpf : pf with
        | false => simp [hpi]; omega
        | true =>
            have hrest : rest.any (fun p => p.1 = i && !p.2.frozen) = true := by
              rcases hx with hp | hr
              · subst hpf; simp [hpi] at hp
              · exact hr
            have := ih hrest
            simp [hpi]; omega
      · have hrest : rest.any (fun p => p.1 = i && !p.2.frozen) = true := by
          rcases hx with hp | hr
          · simp [hpi] at hp
          · exact hr
        have := ih hrest
        cases pf <;> simp [hpi] <;> omega

theorem setFrozen_eq_of_not_any (h : Heap) (i : Nat)
    (hx : h.any (fun p => p.1 = i && !p.2.frozen) = false) :
    setFrozen h i = h := by
  induction h with
  | nil => rfl
  | cons p rest ih =>
      obtain ⟨pk, pc, pf⟩ := p
      simp only [List.any_cons, Bool.or_eq_false_iff] at hx
      obtain ⟨hp, hrest⟩ := hx
      simp only [setFrozen, List.map_cons]
      have tail : setFrozen rest i = rest := ih hrest
      simp only [setFrozen] at tail
      rw [tail]
      by_cases hpi : pk = i
      · have : pf = true := by
          cases pf
          · simp [hpi] at hp
          · rfl
        subst this
        simp [hpi]
      · simp [hpi]

theorem isUnfrozenAt_false_of_not_any (h : Heap) (i : Nat)
    (hx : h.any (fun p => p.1 = i && !p.2.frozen) = false) :
    isUnfrozenAt h i = false := by
  induction h with
  | nil => rfl
  | cons p rest ih =>
      obtain ⟨pk, pc, pf⟩ := p
      simp only [List.any_cons, Bool.or_eq_false_iff] at hx
      obtain ⟨hp, hrest⟩ := hx
      simp only [isUnfrozenAt, lookupH]
      by_cases hpi : pk = i
      · have : pf = true := by
          cases pf
          · simp [hpi] at hp
          · rfl
        subst this
        simp [hpi]
      · simp only [hpi, if_neg hpi]
        exact ih hrest

theorem mem_freezeChildren_unfrozen (h : Heap) (i c : Nat)
    (hc : c ∈ freezeChildren h i) : isUnfrozenAt h c = true := by
  unfold freezeChildren at hc
  split at hc
  case h_2 => simp at hc
  case h_1 n hn =>
    simp only [List.mem_filterMap] at hc
    obtain ⟨v, hv, hveq⟩ := hc
    have hvf := List.of_mem_filter hv
    have hunf : (!isFrozenVal h v) = true := by
      revert hvf
      cases typeofIsObject v <;> cases (!isFrozenVal h v) <;> simp
    match v, hveq with
    | .ref j, hveq =>
        have : j = c := by simpa using hveq
        subst this
        simp only [isFrozenVal, Bool.not_eq_true'] at hunf
        simp only [isUnfrozenAt]
        split
        · simp_all
        · simp_all

theorem findIdx_append_of_lt {p : Nat → Bool} (l l2 : List Nat)
    (hl : l.findIdx p < l.length) : (l ++ l2).findIdx p = l.findIdx p := by
  induction l with
  | nil => simp at hl
  | cons a rest ih =>
      simp only [List.cons_append, List.findIdx_cons, List.length_cons] at *
      cases hpa : p a with
      | true => simp [hpa]
      | false =>
          simp only [hpa, cond_false] at *
          rw [ih (by omega)]

theorem findIdx_append_of_eq_length {p : Nat → Bool} (l l2 : List Nat)
    (hl : l.findIdx p = l.length) :
    (l ++ l2).findIdx p = l.length + l2.findIdx p := by
  induction l with
  | nil => simp
  | cons a rest ih =>
      simp only [List.cons_append, List.findIdx_cons, List.length_cons] at *
      cases hpa : p a with
      | true => simp [hpa] at hl
      | false =>
          simp only [hpa, cond_false] at *
          rw [ih (by omega)]
          omega

theorem findIdx_le_length {p : Nat → Bool} (l : List Nat) :
    l.findIdx p ≤ l.length := by
  induction l with
  | nil => simp
  | cons a rest ih =>
      simp only [List.findIdx_cons, List.length_cons]
      cases hpa : p a with
      | true => simp
      | false =>
          simp only [cond_false]
          omega

/-- Embedding of the `while (stack.length > 0)` loop of `deepFreeze`
(object.ts lines 29-40): dequeue from the front (`stack.shift()`), freeze
the node, enqueue its not-yet-frozen object-valued own properties at the
back (`stack.push`).  Well-founded: each iteration either freezes a node
that was unfrozen (primary measure drops) or, when the heap is unchanged,
moves the first unfrozen queue entry closer to the front (secondary
measure drops, since any newly pushed entry is unfrozen). -/
def freezeLoop (h : Heap) (q : List Nat) : Heap :=
  match q with
  | [] => h
  | i :: rest =>
      let h2 := setFrozen h i
      freezeLoop h2 (rest ++ freezeChildren h2 i)
termination_by (unfrozenCount h, firstUnfrozenIdx h q)
decreasing_by
  cases hA : h.any (fun p => p.1 = i && !p.2.frozen) with
  | true =>
      exact Prod.Lex.left _ _ (unfrozenCount_setFrozen_lt h i hA)
  | false =>
      have heq : setFrozen h i = h := setFrozen_eq_of_not_any h i hA
      rw [heq]
      have hfalse : isUnfrozenAt h i = false := isUnfrozenAt_false_of_not_any h i hA
      have hgoal : firstUnfrozenIdx h (rest ++ freezeChildren h i)
          < firstUnfrozenIdx h (i :: rest) := by
        simp only [firstUnfrozenIdx, List.findIdx_cons, hfalse, cond_false]
        rcases Nat.lt_or_ge (rest.findIdx (fun j => isUnfrozenAt h j))
          rest.length with hlt | hge
        · rw [findIdx_append_of_lt _ _ hlt]
          omega
        · have heql : rest.findIdx (fun j => isUnfrozenAt h j) = rest.length :=
            Nat.le_antisymm (findIdx_le_length rest) hge
          rw [findIdx_append_of_eq_length _ _ heql]
          cases hc : freezeChildren h i with
          | nil => simp [heql]
          | cons c cs =>
              have hcu : isUnfrozenAt h c = true :=
                mem_freezeChildren_unfrozen h i c (by simp [hc])
              simp [List.findIdx_cons, hcu, heql]
      exact Prod.Lex.right _ hgoal

/-- Embedding of `deepFreeze` (object.ts lines 24-42).  Only a truthy
value of object type enters the loop; every other value is returned
untouched.  Returns the final heap together with the (unchanged, same
reference) input value. -/
def deepFreeze (h : Heap) (obj : JSVal) : Heap × JSVal :=
  match obj with
  | .ref i => (freezeLoop h [i], obj)
  | v => (h, v)

/-! ## safeStringify

Embedding of `safeStringify` (object.ts lines 167-179):
`JSON.stringify(obj, replacer)` where the replacer substitutes the
literal string `"[Circular]"` for any mapping/sequence node already on
the shared `seen` list and otherwise records the node on that list.  The
serializer follows the ECMAScript `SerializeJSONProperty` algorithm for
the value forms representable here: the replacer result is serialized;
`undefined` is omitted from objects and rendered `null` inside arrays; a
regexp has no enumerable own properties and serializes as an empty
object.  The `seen` list is threaded through the whole traversal,
exactly like the closure-captured array of the source. -/

/-- Hexadecimal digit, for `\u00XX` escapes. -/
def hexDigit (n : Nat) : String :=
  if n < 10 then String.singleton (Char.ofNat (48 + n))
  else String.singleton (Char.ofNat (87 + n))

/-- Escape of one character inside a JSON string literal. -/
def escapeChar (c : Char) : String :=
  if c = '"' then "\\\""
  else if c = '\\' then "\\\\"
  else if c = '\n' then "\\n"
  else if c = '\r' then "\\r"
  else if c = '\t' then "\\t"
  else if c.toNat = 8 then "\\b"
  else if c.toNat = 12 then "\\f"
  else if c.toNat < 32 then
    "\\u00" ++ hexDigit (c.toNat / 16) ++ hexDigit (c.toNat % 16)
  else String.singleton c

/-- JSON string literal for `s` (the `QuoteJSONString` operation). -/
def quoteJSON (s : String) : String :=
  "\"" ++ String.join (s.data.map escapeChar) ++ "\""

/-- Comma-separated concatenation, as the serializer joins members. -/
def joinComma : List String → String
  | [] => ""
  | [s] => s
  | s :: rest => s ++ "," ++ joinComma rest

/-- Fuelled `JSON.stringify` traversal with `safeStringify`'s replacer
baked in (see the section comment).  Returns the updated `seen` list and
the serialization (`none` models the `undefined` result). -/
def jsonFuel : Nat → Heap → List Nat → JSVal → Option (List Nat × Option String)
  | 0, _, _, _ => none
  | fuel + 1, h, seen, value =>
    let rep : List Nat × JSVal :=
      if isObjectLiteralH h value || isArrayH h value then
        match value with
        | .ref i =>
            if seen.contains i then (seen, .vstr "[Circular]")
            else (seen ++ [i], value)
        | v => (seen, v)
      else (seen, value)
    let seen2 := rep.1
    match rep.2 with
    | .vundef => some (seen2, none)
    | .vnull => some (seen2, some "null")
    | .vbool b => some (seen2, some (if b then "true" else "false"))
    | .vnum n => some (seen2, some (toString n))
    | .vstr s => some (seen2, some (quoteJSON s))
    | .ref i =>
      match lookupH h i with
      | none => some (seen2, none)
      | some node =>
        match node.content with
        | .regexp => some (seen2, some "\x7b\x7d")
        | .arr elems =>
            let step := fun (acc : Option (List Nat × List String)) (e : JSVal) =>
              match acc with
              | none => none
              | some (sn, parts) =>
                match jsonFuel fuel h sn e with
                | none => none
                | some (sn2, so) => some (sn2, parts ++ [so.getD "null"])
            match elems.foldl step (some (seen2, ([] : List String))) with
            | none => none
            | some (sn, parts) =>
                some (sn, some ("[" ++ joinComma parts ++ "]"))
        | .obj fields =>
            let step := fun (acc : Option (List Nat × List String))
                (kv : String × JSVal) =>
              match acc with
              | none => none
              | some (sn, parts) =>
                match jsonFuel fuel h sn kv.2 with
                | none => none
                | some (sn2, so) =>
                    match so with
                    | none => some (sn2, parts)
                    | some str =>
                        some (sn2, parts ++ [quoteJSON kv.1 ++ ":" ++ str])
            match fields.foldl step (some (seen2, ([] : List String))) with
            | none => none
            | some (sn, parts) =>
                some (sn, some ("\x7b" ++ joinComma parts ++ "\x7d"))

/-- Embedding of `safeStringify` (object.ts lines 167-179): the
stringification starts with an empty `seen` list. -/
def safeStringify (fuel : Nat) (h : Heap) (obj : JSVal) : Option (Option String) :=
  (jsonFuel fuel h [] obj).map (fun r => r.2)

/-! ## Basic lemmas on field lists -/

theorem lookupField_updateField (f : FieldList) (k : String) (v : Val)
    (k' : String) :
    lookupField (updateField f k v) k' =
      if k = k' then some v else lookupField f k' := by
  induction f using fieldListInd with
  | hn =>
      simp only [updateField, lookupField]
  | hc k0 v0 rest ih =>
      by_cases hk0 : k0 = k
      · subst hk0
        simp only [updateField, if_pos rfl, lookupField]
        by_cases hk' : k0 = k'
        · simp [hk']
        · simp [hk']
      · simp only [updateField, if_neg hk0, lookupField]
        by_cases hk' : k0 = k'
        · have : ¬(k = k') := fun hc2 => hk0 (hc2 ▸ hk')
          simp [hk', this]
        · simp [hk', ih]

theorem arrayToHash_loop_lookup (l : List String) (acc : FieldList)
    (w : String) :
    lookupField (arrayToHash.loop acc l) w =
      if w ∈ l then some (vbool true) else lookupField acc w := by
  induction l generalizing acc with
  | nil => simp [arrayToHash.loop]
  | cons s rest ih =>
      simp only [arrayToHash.loop, List.mem_cons]
      rw [ih]
      by_cases hrw : w ∈ rest
      · simp [hrw]
      · simp only [hrw, or_false]
        rw [lookupField_updateField]
        by_cases hsw : s = w
        · simp [hsw]
        · have : ¬(w = s) := fun hc => hsw hc.symm
          simp [hsw, this]

theorem createKeywordMatcher_spec (arr : List String) (ci : Bool)
    (w : String) :
    createKeywordMatcher arr ci w =
      (if ci then (arr.map strToLower).contains (strToLower w)
       else arr.contains w) := by
  cases ci with
  | true =>
      show (!(jsEq (getField (arrayToHash (arr.map (fun x => strToLower x)))
          (strToLower w)) vundef)
          && containsKey (arrayToHash (arr.map (fun x => strToLower x)))
            (strToLower w))
        = (arr.map strToLower).contains (strToLower w)
      rw [show arrayToHash (arr.map (fun x => strToLower x))
          = arrayToHash.loop .nil (arr.map (fun x => strToLower x)) from rfl]
      simp only [getField, containsKey, arrayToHash_loop_lookup]
      by_cases hc : strToLower w ∈ arr.map (fun x => strToLower x)
      · have hc2 : (arr.map strToLower).contains (strToLower w) = true :=
          List.elem_iff.mpr hc
        simp [hc, hc2, jsEq]
      · have hc2 : (arr.map strToLower).contains (strToLower w) = false := by
          cases hh : (arr.map strToLower).contains (strToLower w)
          · rfl
          · exact absurd (List.elem_iff.mp hh) hc
        simp [hc, hc2, lookupField, jsEq]
  | false =>
      show (!(jsEq (getField (arrayToHash arr) w) vundef)
          && containsKey (arrayToHash arr) w)
        = arr.contains w
      rw [show arrayToHash arr = arrayToHash.loop .nil arr from rfl]
      simp only [getField, containsKey, arrayToHash_loop_lookup]
      by_cases hc : w ∈ arr
      · have hc2 : arr.contains w = true := List.elem_iff.mpr hc
        simp [hc, hc2, jsEq]
      · have hc2 : arr.contains w = false := by
          cases hh : arr.contains w
          · rfl
          · exact absurd (List.elem_iff.mp hh) hc
        simp [hc, hc2, lookupField, jsEq]

/-- C8.  The predicate returned by `createKeywordMatcher(words,
caseInsensitive)` tests membership of its argument in the word list,
case-normalized when `caseInsensitive` is true; in particular
`createKeywordMatcher(['if','else'], true)("IF")` is true and
`createKeywordMatcher(['if','else'], false)("IF")` is false. -/
theorem claim_C8_createKeywordMatcher :
    (∀ (arr : List String) (ci : Bool) (w : String),
        createKeywordMatcher arr ci w =
          (if ci then (arr.map strToLower).contains (strToLower w)
           else arr.contains w))
    ∧ createKeywordMatcher ["if", "else"] true "IF" = true
    ∧ createKeywordMatcher ["if", "else"] false "IF" = false :=
  ⟨createKeywordMatcher_spec, by decide, by decide⟩

/-! ## distinct -/

theorem distinctLoop_lookup_not_mem (b t : Val) (ks : List String)
    (acc : FieldList) (k : String) (hk : k ∉ ks) :
    lookupField (distinctLoop b t ks acc) k = lookupField acc k := by
  induction ks generalizing acc with
  | nil => simp [distinctLoop]
  | cons k0 rest ih =>
      have hne : k0 ≠ k := fun hc => hk (by simp [hc])
      have hkrest : k ∉ rest := fun hc => hk (by simp [hc])
      simp only [distinctLoop]
      by_cases hcond : (!(equals (getProp b k0) (getProp t k0))) = true
      · rw [if_pos hcond, ih _ hkrest, lookupField_updateField]
        simp [hne]
      · rw [if_neg hcond]
        exact ih _ hkrest

theorem distinctLoop_lookup_mem (b t : Val) (ks : List String)
    (acc : FieldList) (k : String) (hk : k ∈ ks) (hnd : ks.Nodup) :
    lookupField (distinctLoop b t ks acc) k =
      if !(equals (getProp b k) (getProp t k)) then some (getProp t k)
      else lookupField acc k := by
  induction ks generalizing acc with
  | nil => simp at hk
  | cons k0 rest ih =>
      rcases List.mem_cons.mp hk with hk0 | hkr
      · subst hk0
        have hkrest : k ∉ rest := (List.nodup_cons.mp hnd).1
        simp only [distinctLoop]
        by_cases hcond : (!(equals (getProp b k) (getProp t k))) = true
        · rw [if_pos hcond, distinctLoop_lookup_not_mem _ _ _ _ _ hkrest,
            lookupField_updateField, if_pos hcond]
          simp
        · rw [if_neg hcond, distinctLoop_lookup_not_mem _ _ _ _ _ hkrest,
            if_neg hcond]
      · have hnd' : rest.Nodup := (List.nodup_cons.mp hnd).2
        simp only [distinctLoop]
        by_cases hcond : (!(equals (getProp b k0) (getProp t k0))) = true
        · rw [if_pos hcond, ih _ hkr hnd']
          have hne : k0 ≠ k := fun hc => (List.nodup_cons.mp hnd).1 (hc ▸ hkr)
          by_cases hck : (!(equals (getProp b k) (getProp t k))) = true
          · rw [if_pos hck, if_pos hck]
          · rw [if_neg hck, if_neg hck, lookupField_updateField]
            simp [hne]
        · rw [if_neg hcond]
          exact ih _ hkr hnd'

theorem containsKey_iff_mem_keys (f : FieldList) (k : String) :
    containsKey f k = true ↔ k ∈ keysOfF f := by
  induction f using fieldListInd with
  | hn => simp [containsKey, lookupField, keysOfF]
  | hc k0 v0 rest ih =>
      simp only [containsKey, lookupField, keysOfF, List.mem_cons]
      by_cases hk0 : k0 = k
      · simp [hk0]
      · have : ¬(k = k0) := fun hc => hk0 hc.symm
        simp [hk0, this, ← ih, containsKey]

/-- C6.  `distinct(base, target)` returns a new mapping that contains a
key `k` exactly when `k` is a key of `target` and `target[k]` is not
deep-`equals` to `base[k]` (keys only in `base` ignored, values taken
whole); an absent input yields the empty mapping; and
`distinct({a:1,b:2}, {a:1,b:3,c:4})` yields `{b:3, c:4}`. -/
theorem claim_C6_distinct :
    (∀ (bi ti : Nat) (bf tf : FieldList) (k : String),
        (keysOfF tf).Nodup →
        lookupField (distinct (vobj bi bf) (vobj ti tf)) k =
          (if containsKey tf k && !(equals (getField bf k) (getField tf k))
           then some (getField tf k) else none))
    ∧ (∀ b t : Val, truthy b = false ∨ truthy t = false → distinct b t = .nil)
    ∧ distinct (vobj 0 (.cons "a" (vnum 1) (.cons "b" (vnum 2) .nil)))
        (vobj 1 (.cons "a" (vnum 1)
          (.cons "b" (vnum 3) (.cons "c" (vnum 4) .nil))))
      = .cons "b" (vnum 3) (.cons "c" (vnum 4) .nil) := by
  refine ⟨?_, ?_, by decide⟩
  · intro bi ti bf tf k hnd
    rw [show distinct (vobj bi bf) (vobj ti tf)
        = distinctLoop (vobj bi bf) (vobj ti tf) (jsKeys (vobj ti tf))
          FieldList.nil from rfl]
    by_cases hmem : k ∈ keysOfF tf
    · rw [distinctLoop_lookup_mem _ _ _ _ _ (by simpa [jsKeys] using hmem) (by simpa [jsKeys] using hnd)]
      have hck : containsKey tf k = true := (containsKey_iff_mem_keys tf k).mpr hmem
      simp only [hck, Bool.true_and, getProp]
      by_cases hcond : equals (getField bf k) (getField tf k)
      · simp [hcond, lookupField]
      · simp [hcond]
    · rw [distinctLoop_lookup_not_mem _ _ _ _ _ (by simpa [jsKeys] using hmem)]
      have hck : containsKey tf k = false := by
        cases hc : containsKey tf k
        · rfl
        · exact absurd ((containsKey_iff_mem_keys tf k).mp hc) hmem
      simp [hck, lookupField]
  · intro b t hbt
    rcases hbt with hb | hb <;> simp [distinct, hb]

/-- Witness for C6: the characterization applied at a concrete input with
the duplicate-free-keys hypothesis discharged by computation. -/
theorem claim_C6_distinct_witness :
    lookupField (distinct (vobj 0 (.cons "a" (vnum 1) .nil))
      (vobj 1 (.cons "a" (vnum 2) .nil))) "a" = some (vnum 2) := by
  have h := claim_C6_distinct.1 0 1 (.cons "a" (vnum 1) .nil)
    (.cons "a" (vnum 2) .nil) "a" (by decide)
  rw [h]
  decide

/-! ## mixin -/

theorem getField_updateField (f : FieldList) (k : String) (v : Val)
    (k' : String) :
    getField (updateField f k v) k' = if k = k' then v else getField f k' := by
  simp only [getField, lookupField_updateField]
  by_cases hk : k = k' <;> simp [hk]

theorem containsKey_updateField (f : FieldList) (k : String) (v : Val)
    (k' : String) :
    containsKey (updateField f k v) k' =
      if k = k' then true else containsKey f k' := by
  simp only [containsKey, lookupField_updateField]
  by_cases hk : k = k' <;> simp [hk]

/-- Fields produced by one `forEach` step of `mixin` on destination
fields `df` at source key `k` with incoming value `v` (a restatement of
the branch structure of object.ts lines 103-113, used to reason about the
loop). -/
def mixinNewFields (df : FieldList) (k : String) (v : Val) (ow : Bool) :
    FieldList :=
  if containsKey df k then
    if ow then
      if isObjectLiteral (getField df k) && isObjectLiteral v then
        updateField df k (mixin (getField df k) v ow)
      else updateField df k v
    else df
  else updateField df k v

theorem mixinFields_cons (i : Nat) (df : FieldList) (k0 : String) (v0 : Val)
    (rest : FieldList) (ow : Bool) :
    mixinFields (vobj i df) (FieldList.cons k0 v0 rest) ow =
      mixinFields (vobj i (mixinNewFields df k0 v0 ow)) rest ow := by
  simp only [mixinFields, mixinNewFields]
  by_cases h1 : containsKey df k0 = true
  · cases ow with
    | false => simp [h1]
    | true =>
        by_cases h2 :
            (isObjectLiteral (getField df k0) && isObjectLiteral v0) = true
        · simp [h1, h2]
        · simp [h1, h2]
  · simp [h1]

theorem getField_mixinNewFields_ne (df : FieldList) (k0 : String) (v0 : Val)
    (ow : Bool) (k : String) (hne : k0 ≠ k) :
    getField (mixinNewFields df k0 v0 ow) k = getField df k := by
  unfold mixinNewFields
  split
  · split
    · split <;> rw [getField_updateField] <;> simp [hne]
    · rfl
  · rw [getField_updateField]; simp [hne]

theorem containsKey_mixinNewFields_ne (df : FieldList) (k0 : String)
    (v0 : Val) (ow : Bool) (k : String) (hne : k0 ≠ k) :
    containsKey (mixinNewFields df k0 v0 ow) k = containsKey df k := by
  unfold mixinNewFields
  split
  · split
    · split <;> rw [containsKey_updateField] <;> simp [hne]
    · rfl
  · rw [containsKey_updateField]; simp [hne]

theorem getField_mixinNewFields_self (df : FieldList) (k0 : String)
    (v0 : Val) (ow : Bool) :
    getField (mixinNewFields df k0 v0 ow) k0 =
      (if containsKey df k0 then
        (if ow then
          (if isObjectLiteral (getField df k0) && isObjectLiteral v0 then
            mixin (getField df k0) v0 ow
           else v0)
         else getField df k0)
       else v0) := by
  unfold mixinNewFields
  by_cases h1 : containsKey df k0 = true
  · cases ow with
    | false => simp [h1]
    | true =>
        by_cases h2 :
            (isObjectLiteral (getField df k0) && isObjectLiteral v0) = true
        · simp [h1, h2, getField_updateField]
        · simp [h1, h2, getField_updateField]
  · simp [h1, getField_updateField]

/-- Shape of a `mixin` merge: the returned value is the destination
object — same reference id, possibly different fields. -/
theorem mixinFields_shape (sf : FieldList) :
    ∀ (i : Nat) (df : FieldList) (ow : Bool),
      ∃ g, mixinFields (vobj i df) sf ow = vobj i g := by
  induction sf using fieldListInd with
  | hn => intro i df ow; exact ⟨df, rfl⟩
  | hc k0 v0 rest ih =>
      intro i df ow
      rw [mixinFields_cons]
      exact ih i (mixinNewFields df k0 v0 ow) ow

theorem mixinFields_getProp_not_mem (sf : FieldList) :
    ∀ (i : Nat) (df : FieldList) (ow : Bool) (k : String),
      k ∉ keysOfF sf →
      getProp (mixinFields (vobj i df) sf ow) k = getField df k := by
  induction sf using fieldListInd with
  | hn => intro i df ow k _; rfl
  | hc k0 v0 rest ih =>
      intro i df ow k hk
      have hne : k0 ≠ k := fun hc2 => hk (by simp [keysOfF, hc2])
      have hkrest : k ∉ keysOfF rest := fun hc2 => hk (by simp [keysOfF, hc2])
      rw [mixinFields_cons, ih i _ ow k hkrest,
        getField_mixinNewFields_ne _ _ _ _ _ hne]

theorem mixinFields_getProp_mem (sf : FieldList) :
    ∀ (i : Nat) (df : FieldList) (ow : Bool) (k : String) (v : Val),
      lookupField sf k = some v → (keysOfF sf).Nodup →
      getProp (mixinFields (vobj i df) sf ow) k =
        (if containsKey df k then
          (if ow then
            (if isObjectLiteral (getField df k) && isObjectLiteral v then
              mixin (getField df k) v ow
             else v)
           else getField df k)
         else v) := by
  induction sf using fieldListInd with
  | hn => intro i df ow k v hv _; simp [lookupField] at hv
  | hc k0 v0 rest ih =>
      intro i df ow k v hv hnd
      have hnd2 : (keysOfF rest).Nodup :=
        (List.nodup_cons.mp (by simpa [keysOfF] using hnd)).2
      by_cases hkk : k0 = k
      · subst hkk
        have hv0 : v = v0 := by
          simp [lookupField] at hv
          exact hv.symm
        subst hv0
        have hkrest : k0 ∉ keysOfF rest :=
          (List.nodup_cons.mp (by simpa [keysOfF] using hnd)).1
        rw [mixinFields_cons, mixinFields_getProp_not_mem rest i _ ow k0 hkrest,
          getField_mixinNewFields_self]
      · have hvrest : lookupField rest k = some v := by
          simpa [lookupField, hkk] using hv
        rw [mixinFields_cons, ih i _ ow k v hvrest hnd2,
          containsKey_mixinNewFields_ne _ _ _ _ _ hkk,
          getField_mixinNewFields_ne _ _ _ _ _ hkk]

theorem mixin_obj_eq (i j : Nat) (df sf : FieldList) (ow : Bool) :
    mixin (vobj i df) (vobj j sf) ow = mixinFields (vobj i df) sf ow := by
  simp [mixin, isObjectLiteral]

/-- C5 (amended).  `mixin(destination, source, overwrite)` returns the
mutated destination (same reference): keys of `source` absent from
`destination` are added regardless of `overwrite`; for a key present in
both, when `overwrite` is true and both values are plain mappings the
values are merged recursively with the same flag, when `overwrite` is
true otherwise the incoming value replaces the existing one, and when
`overwrite` is false the existing value is always left untouched (even
when both values are plain mappings — no recursive merge happens then).
A non-mapping destination makes `mixin` return `source` unchanged.
`mixin({a:1},{a:2},true)` yields `{a:2}`, `mixin({a:1},{a:2},false)`
yields `{a:1}`, and `mixin({a:{x:1}},{a:{y:2}})` (overwrite defaulted
true) yields `{a:{x:1,y:2}}`. -/
theorem claim_C5_mixin :
    (∀ (d s : Val) (ow : Bool), isObjectLiteral d = false → mixin d s ow = s)
    ∧ (∀ (i j : Nat) (df sf : FieldList) (ow : Bool),
        ∃ g, mixin (vobj i df) (vobj j sf) ow = vobj i g)
    ∧ (∀ (i j : Nat) (df sf : FieldList) (ow : Bool) (k : String),
        (keysOfF sf).Nodup →
        getProp (mixin (vobj i df) (vobj j sf) ow) k =
          (match lookupField sf k with
           | none => getField df k
           | some v =>
              if containsKey df k then
                (if ow then
                  (if isObjectLiteral (getField df k) && isObjectLiteral v then
                    mixin (getField df k) v ow
                   else v)
                 else getField df k)
              else v))
    ∧ mixin (vobj 0 (.cons "a" (vnum 1) .nil))
        (vobj 1 (.cons "a" (vnum 2) .nil)) true
      = vobj 0 (.cons "a" (vnum 2) .nil)
    ∧ mixin (vobj 0 (.cons "a" (vnum 1) .nil))
        (vobj 1 (.cons "a" (vnum 2) .nil)) false
      = vobj 0 (.cons "a" (vnum 1) .nil)
    ∧ mixin (vobj 0 (.cons "a" (vobj 1 (.cons "x" (vnum 1) .nil)) .nil))
        (vobj 2 (.cons "a" (vobj 3 (.cons "y" (vnum 2) .nil)) .nil)) true
      = vobj 0 (.cons "a" (vobj 1 (.cons "x" (vnum 1)
          (.cons "y" (vnum 2) .nil))) .nil) := by
  refine ⟨?_, ?_, ?_, by decide, by decide, by decide⟩
  · intro d s ow hd
    unfold mixin
    simp [hd]
  · intro i j df sf ow
    rw [mixin_obj_eq]
    exact mixinFields_shape sf i df ow
  · intro i j df sf ow k hnd
    rw [mixin_obj_eq]
    cases hv : lookupField sf k with
    | none =>
        have hnm : k ∉ keysOfF sf := by
          intro hmem
          have := (containsKey_iff_mem_keys sf k).mpr hmem
          simp [containsKey, hv] at this
        exact mixinFields_getProp_not_mem sf i df ow k hnm
    | some v =>
        exact mixinFields_getProp_mem sf i df ow k v hv hnd

/-- Counterexample to C5 as stated: the claim asserts an unconditional
recursive merge whenever a key is present in both objects with
plain-mapping values on both sides; but the source only recurses under
`if (overwrite)`, so with `overwrite = false` the destination entry is
left untouched and the nested source-only key `"y"` (which any recursive
merge would add, since absent keys are always added) does not appear. -/
theorem claim_C5_counterexample :
    mixin (vobj 0 (.cons "a" (vobj 1 (.cons "x" (vnum 1) .nil)) .nil))
        (vobj 2 (.cons "a" (vobj 3 (.cons "y" (vnum 2) .nil)) .nil)) false
      = vobj 0 (.cons "a" (vobj 1 (.cons "x" (vnum 1) .nil)) .nil)
    ∧ getProp (getProp (mixin
        (vobj 0 (.cons "a" (vobj 1 (.cons "x" (vnum 1) .nil)) .nil))
        (vobj 2 (.cons "a" (vobj 3 (.cons "y" (vnum 2) .nil)) .nil)) false)
        "a") "y"
      ≠ vnum 2 :=
  ⟨by decide, by decide⟩

/-! ## Lemmas about the string sort -/

theorem charToNat_inj {a b : Char} (h : Char.toNat a = Char.toNat b) :
    a = b :=
  Char.ext (UInt32.ext h)

theorem listCharLtB_asymm :
    ∀ (l m : List Char), listCharLtB l m = true → listCharLtB m l = false := by
  intro l
  induction l with
  | nil => intro m h; cases m <;> simp_all [listCharLtB]
  | cons a as ih =>
      intro m h
      cases m with
      | nil => simp [listCharLtB] at h
      | cons b bs =>
          simp only [listCharLtB] at h ⊢
          by_cases hab : a = b
          · subst hab
            simp only [if_pos rfl] at h ⊢
            exact ih bs h
          · have hba : ¬(b = a) := fun hc => hab hc.symm
            simp only [hab, if_false] at h
            simp only [hba, if_false]
            simp only [charLtB, decide_eq_true_eq, decide_eq_false_iff_not] at h ⊢
            omega

theorem listCharLtB_false_imp :
    ∀ (l m : List Char), listCharLtB l m = false →
      listCharLtB m l = true ∨ l = m := by
  intro l
  induction l with
  | nil =>
      intro m h
      cases m with
      | nil => exact Or.inr rfl
      | cons b bs => simp [listCharLtB] at h
  | cons a as ih =>
      intro m h
      cases m with
      | nil => exact Or.inl rfl
      | cons b bs =>
          simp only [listCharLtB] at h ⊢
          by_cases hab : a = b
          · subst hab
            simp only [if_pos rfl] at h ⊢
            rcases ih bs h with h2 | h2
            · exact Or.inl h2
            · exact Or.inr (by rw [h2])
          · have hba : ¬(b = a) := fun hc => hab hc.symm
            simp only [hab, if_false] at h
            simp only [hba, if_false]
            left
            simp only [charLtB, decide_eq_true_eq, decide_eq_false_iff_not] at h ⊢
            have : Char.toNat a ≠ Char.toNat b := fun hc => hab (charToNat_inj hc)
            omega

theorem listCharLtB_trans :
    ∀ (l m n : List Char), listCharLtB l m = true → listCharLtB m n = true →
      listCharLtB l n = true := by
  intro l
  induction l with
  | nil =>
      intro m n h1 h2
      cases m with
      | nil => exact h2
      | cons b bs =>
          cases n with
          | nil => simp [listCharLtB] at h2
          | cons c cs => simp [listCharLtB]
  | cons a as ih =>
      intro m n h1 h2
      cases m with
      | nil => simp [listCharLtB] at h1
      | cons b bs =>
          cases n with
          | nil => simp [listCharLtB] at h2
          | cons c cs =>
              simp only [listCharLtB] at h1 h2 ⊢
              by_cases hab : a = b
              · subst hab
                simp only [if_pos rfl] at h1
                by_cases hbc : a = c
                · subst hbc
                  simp only [if_pos rfl] at h2 ⊢
                  exact ih bs cs h1 h2
                · simp only [hbc, if_false] at h2 ⊢
                  exact h2
              · simp only [hab, if_false] at h1
                by_cases hbc : b = c
                · subst hbc
                  simp only [hab, if_false] at h2 ⊢
                  exact h1
                · simp only [hbc, if_false] at h2
                  by_cases hac : a = c
                  · exfalso
                    subst hac
                    simp only [charLtB, decide_eq_true_eq] at h1 h2
                    omega
                  · simp only [hac, if_false]
                    simp only [charLtB, decide_eq_true_eq] at h1 h2 ⊢
                    omega

theorem strLeB_total (s t : String) :
    strLeB s t = true ∨ strLeB t s = true := by
  unfold strLeB
  cases h : listCharLtB t.data s.data with
  | false => exact Or.inl rfl
  | true =>
      right
      rw [listCharLtB_asymm _ _ h]
      rfl

theorem strLeB_false_imp {s t : String} (h : strLeB s t = false) :
    strLeB t s = true := by
  unfold strLeB at h ⊢
  cases hl : listCharLtB t.data s.data with
  | false => rw [hl] at h; simp at h
  | true => rw [listCharLtB_asymm _ _ hl]; rfl

theorem strLeB_antisymm {s t : String} (h1 : strLeB s t = true)
    (h2 : strLeB t s = true) : s = t := by
  unfold strLeB at h1 h2
  have hts : listCharLtB t.data s.data = false := by
    cases h : listCharLtB t.data s.data
    · rfl
    · rw [h] at h1; simp at h1
  have hst : listCharLtB s.data t.data = false := by
    cases h : listCharLtB s.data t.data
    · rfl
    · rw [h] at h2; simp at h2
  rcases listCharLtB_false_imp _ _ hts with h3 | h3
  · rw [h3] at hst; simp at hst
  · cases s
    cases t
    exact congrArg String.mk h3.symm

theorem strLeB_trans {s t u : String} (h1 : strLeB s t = true)
    (h2 : strLeB t u = true) : strLeB s u = true := by
  unfold strLeB at h1 h2 ⊢
  have hts : listCharLtB t.data s.data = false := by
    cases h : listCharLtB t.data s.data
    · rfl
    · rw [h] at h1; simp at h1
  have hut : listCharLtB u.data t.data = false := by
    cases h : listCharLtB u.data t.data
    · rfl
    · rw [h] at h2; simp at h2
  cases hus : listCharLtB u.data s.data with
  | false => rfl
  | true =>
      exfalso
      rcases listCharLtB_false_imp _ _ hut with h3 | h3
      · have := listCharLtB_trans _ _ _ h3 hus
        rw [this] at hts
        simp at hts
      · rw [h3] at hus
        rw [hus] at hts
        simp at hts

/-- Sortedness with respect to the JavaScript string order. -/
def SortedStr (l : List String) : Prop :=
  l.Pairwise (fun a b => strLeB a b = true)

theorem insertSorted_perm (s : String) (l : List String) :
    (insertSorted s l).Perm (s :: l) := by
  induction l with
  | nil => exact List.Perm.refl _
  | cons t rest ih =>
      simp only [insertSorted]
      by_cases h : strLeB s t = true
      · rw [if_pos h]
      · rw [if_neg h]
        exact (ih.cons t).trans (List.Perm.swap s t rest)

theorem insertSorted_sorted (s : String) (l : List String)
    (hl : SortedStr l) : SortedStr (insertSorted s l) := by
  induction l with
  | nil =>
      simp [insertSorted, SortedStr]
  | cons t rest ih =>
      simp only [insertSorted]
      by_cases h : strLeB s t = true
      · rw [if_pos h]
        refine List.Pairwise.cons ?_ hl
        intro x hx
        rcases List.mem_cons.mp hx with hx | hx
        · exact hx ▸ h
        · exact strLeB_trans h
            ((List.pairwise_cons.mp hl).1 x hx)
      · rw [if_neg h]
        have hts : strLeB t s = true :=
          strLeB_false_imp (by simpa using h)
        have hrest := (List.pairwise_cons.mp hl).2
        refine List.Pairwise.cons ?_ (ih hrest)
        intro x hx
        have hx2 : x ∈ s :: rest :=
          (insertSorted_perm s rest).mem_iff.mp hx
        rcases List.mem_cons.mp hx2 with hx2 | hx2
        · exact hx2 ▸ hts
        · exact (List.pairwise_cons.mp hl).1 x hx2

theorem sortStrings_perm (l : List String) : (sortStrings l).Perm l := by
  induction l with
  | nil => exact List.Perm.refl _
  | cons s rest ih =>
      simp only [sortStrings]
      exact (insertSorted_perm s (sortStrings rest)).trans (ih.cons s)

theorem sortStrings_sorted (l : List String) : SortedStr (sortStrings l) := by
  induction l with
  | nil => simp [sortStrings, SortedStr]
  | cons s rest ih => exact insertSorted_sorted s _ ih

theorem sortStrings_eq_of_perm {l l' : List String} (h : l.Perm l') :
    sortStrings l = sortStrings l' := by
  haveI : IsAntisymm String (fun a b => strLeB a b = true) :=
    ⟨fun _ _ ha hb => strLeB_antisymm ha hb⟩
  exact List.eq_of_perm_of_sorted
    ((sortStrings_perm l).trans (h.trans (sortStrings_perm l').symm))
    (sortStrings_sorted l) (sortStrings_sorted l')

/-! ## Association-list views of field lists -/

/-- List of key/value pairs of a field list in order. -/
def toPairs : FieldList → List (String × Val)
  | .nil => []
  | .cons k v rest => (k, v) :: toPairs rest

/-- Lookup in a pair list (first match). -/
def lookupPairs : List (String × Val) → String → Option Val
  | [], _ => none
  | (k0, v) :: rest, k => if k0 = k then some v else lookupPairs rest k

theorem lookupField_eq_lookupPairs (f : FieldList) (k : String) :
    lookupField f k = lookupPairs (toPairs f) k := by
  induction f using fieldListInd with
  | hn => rfl
  | hc k0 v0 rest ih =>
      simp only [lookupField, toPairs, lookupPairs]
      by_cases h : k0 = k <;> simp [h, ih]

theorem keysOfF_eq_map_fst (f : FieldList) :
    keysOfF f = (toPairs f).map Prod.fst := by
  induction f using fieldListInd with
  | hn => rfl
  | hc k0 v0 rest ih => simp [keysOfF, toPairs, ih]

theorem lookupPairs_perm {p q : List (String × Val)} (h : p.Perm q)
    (hnd : (p.map Prod.fst).Nodup) (k : String) :
    lookupPairs p k = lookupPairs q k := by
  induction h with
  | nil => rfl
  | cons x h2 ih =>
      obtain ⟨k0, v0⟩ := x
      simp only [lookupPairs]
      by_cases hk : k0 = k
      · simp [hk]
      · simp only [hk, if_false]
        exact ih (by simpa using (List.nodup_cons.mp (by simpa using hnd)).2)
  | swap x y l =>
      obtain ⟨k0, v0⟩ := x
      obtain ⟨k1, v1⟩ := y
      simp only [lookupPairs]
      by_cases h0 : k0 = k
      · subst h0
        by_cases h1 : k1 = k0
        · exfalso
          simp [h1] at hnd
        · simp [h1]
      · simp [h0]
  | trans h1 h2 ih1 ih2 =>
      rw [ih1 hnd, ih2]
      have : _ := h1.map Prod.fst
      exact this.nodup_iff.mp hnd

/-! ## Reflexivity facts about equals -/

theorem jsEq_refl (v : Val) : jsEq v v = true := by
  cases v <;> simp [jsEq]

theorem equalsFuel_refl (fuel : Nat) (v : Val) (h : 1 ≤ fuel) :
    equalsFuel fuel v v = true := by
  obtain ⟨n, rfl⟩ : ∃ n, fuel = n + 1 := ⟨fuel - 1, by omega⟩
  simp [equalsFuel, jsEq_refl]

theorem zipAllB_refl_str (p : Val → Val → Bool)
    (hp : ∀ s, p (vstr s) (vstr s) = true) (ks : List String) :
    zipAllB p (strArr.strListToValList ks) (strArr.strListToValList ks)
      = true := by
  induction ks with
  | nil => rfl
  | cons k rest ih => simp [strArr.strListToValList, zipAllB, hp, ih]

theorem eqStrArr_refl (fuel : Nat) (h : 2 ≤ fuel) (ks : List String) :
    equalsFuel fuel (strArr 0 ks) (strArr 1 ks) = true := by
  obtain ⟨n, rfl⟩ : ∃ n, fuel = n + 1 := ⟨fuel - 1, by omega⟩
  have hz := zipAllB_refl_str (fun a b => equalsFuel n a b)
    (fun s => equalsFuel_refl n (vstr s) (by omega)) ks
  simp [equalsFuel, strArr, jsEq, typeofV, isArrayV, hz]

/-! ## Key-order independence of equals on plain objects -/

theorem equalsFuel_obj_perm (n i j : Nat) (f g : FieldList)
    (hperm : (toPairs f).Perm (toPairs g)) (hnd : (keysOfF f).Nodup)
    (hn : 3 ≤ n) :
    equalsFuel n (vobj i f) (vobj j g) = true := by
  obtain ⟨m, rfl⟩ : ∃ m, n = m + 1 := ⟨n - 1, by omega⟩
  by_cases hij : (i == j) = true
  · simp [equalsFuel, jsEq, hij]
  · have hkperm : (keysOfF f).Perm (keysOfF g) := by
      rw [keysOfF_eq_map_fst, keysOfF_eq_map_fst]
      exact hperm.map _
    have hsort : sortStrings (keysOfF g) = sortStrings (keysOfF f) :=
      sortStrings_eq_of_perm hkperm.symm
    simp only [equalsFuel, jsKeys]
    rw [show jsEq (vobj i f) (vobj j g) = false from by simp [jsEq, hij]]
    simp only [jsEq, typeofV, isArrayV, Bool.false_eq_true, if_false,
      Bool.or_self, Bool.false_or, bne_self_eq_false,
      show (("object" : String) != "object") = false from rfl,
      show ((false : Bool) != false) = false from rfl]
    rw [hsort]
    rw [eqStrArr_refl m (by omega) (sortStrings (keysOfF f))]
    simp only [Bool.not_true, Bool.false_eq_true, if_false]
    rw [List.all_eq_true]
    intro k hk
    have hkmem : k ∈ keysOfF f := (sortStrings_perm (keysOfF f)).mem_iff.mp hk
    have hck : containsKey f k = true := (containsKey_iff_mem_keys f k).mpr hkmem
    obtain ⟨v, hv⟩ : ∃ v, lookupField f k = some v := by
      cases hl : lookupField f k
      · simp [containsKey, hl] at hck
      · exact ⟨_, rfl⟩
    have hvg : lookupField g k = some v := by
      rw [lookupField_eq_lookupPairs] at hv ⊢
      rw [← lookupPairs_perm hperm (by rw [← keysOfF_eq_map_fst]; exact hnd) k]
      exact hv
    have h1 : getProp (vobj i f) k = v := by simp [getProp, getField, hv]
    have h2 : getProp (vobj j g) k = v := by simp [getProp, getField, hvg]
    rw [h1, h2]
    exact equalsFuel_refl m v (by omega)

/-! ## Symmetry of equals -/

theorem jsEq_comm (a b : Val) : jsEq a b = jsEq b a := by
  cases a <;> cases b <;> simp [jsEq, Bool.beq_comm]

/-- Identity tags of the freshly built key arrays are invisible to
`equalsFuel` as long as they differ (the `===` shortcut can never fire on
two distinct references). -/
theorem equalsFuel_strArr_ids (m : Nat) (ka kb : List String)
    (i j i' j' : Nat) (hij : i ≠ j) (hij' : i' ≠ j') :
    equalsFuel m (strArr i ka) (strArr j kb)
      = equalsFuel m (strArr i' ka) (strArr j' kb) := by
  cases m with
  | zero => rfl
  | succ n =>
      have h1 : (i == j) = false := by simpa using hij
      have h2 : (i' == j') = false := by simpa using hij'
      simp [equalsFuel, strArr, jsEq, typeofV, isArrayV, h1, h2]

theorem equalsFuel_vstr_imp (m : Nat) (x y : String)
    (h : equalsFuel m (vstr x) (vstr y) = true) : x = y := by
  cases m with
  | zero => simp [equalsFuel] at h
  | succ n =>
      by_cases hxy : x = y
      · exact hxy
      · exfalso
        have : (x == y) = false := by simpa using hxy
        simp [equalsFuel, jsEq, typeofV, this] at h

theorem zipAllB_strList_imp (m : Nat) :
    ∀ (ka kb : List String),
      zipAllB (fun a b => equalsFuel m a b) (strArr.strListToValList ka)
        (strArr.strListToValList kb) = true → ka = kb := by
  intro ka
  induction ka with
  | nil =>
      intro kb h
      cases kb with
      | nil => rfl
      | cons b bs => simp [strArr.strListToValList, zipAllB] at h
  | cons a as ih =>
      intro kb h
      cases kb with
      | nil => simp [strArr.strListToValList, zipAllB] at h
      | cons b bs =>
          simp only [strArr.strListToValList, zipAllB, Bool.and_eq_true] at h
          rw [equalsFuel_vstr_imp m a b h.1, ih bs h.2]

/-- Keys arrays comparing equal forces the two sorted key lists to be
equal as lists. -/
theorem eqStrArr_true_imp (m : Nat) (ka kb : List String) (i j : Nat)
    (hij : i ≠ j)
    (h : equalsFuel m (strArr i ka) (strArr j kb) = true) : ka = kb := by
  cases m with
  | zero => simp [equalsFuel] at h
  | succ n =>
      have h1 : (i == j) = false := by simpa using hij
      rw [show equalsFuel (n + 1) (strArr i ka) (strArr j kb)
          = zipAllB (fun a b => equalsFuel n a b) (strArr.strListToValList ka)
            (strArr.strListToValList kb) from by
        simp [equalsFuel, strArr, jsEq, typeofV, isArrayV, h1]] at h
      exact zipAllB_strList_imp n ka kb h

theorem equalsFuel_symm (fuel : Nat) :
    ∀ (a b : Val), equalsFuel fuel a b = equalsFuel fuel b a := by
  induction fuel with
  | zero => intro a b; rfl
  | succ n ih =>
      intro a b
      simp only [equalsFuel]
      rw [jsEq_comm b a]
      by_cases h1 : jsEq a b = true
      · rw [if_pos h1, if_pos h1]
      · rw [if_neg h1, if_neg h1]
        have hnull : (jsEq a vnull || jsEq a vundef || jsEq b vnull
            || jsEq b vundef)
            = (jsEq b vnull || jsEq b vundef || jsEq a vnull
              || jsEq a vundef) := by
          cases hA : jsEq a vnull <;> cases hB : jsEq a vundef <;>
            cases hC : jsEq b vnull <;> cases hD : jsEq b vundef <;> rfl
        rw [hnull]
        by_cases h2 : (jsEq b vnull || jsEq b vundef || jsEq a vnull
            || jsEq a vundef) = true
        · rw [if_pos h2, if_pos h2]
        · rw [if_neg h2, if_neg h2]
          by_cases h3 : typeofV a = typeofV b
          · rw [h3]
            have hbne : ¬((typeofV b != typeofV b) = true) := by simp
            rw [if_neg hbne, if_neg hbne]
            by_cases h4 : (typeofV b != "object") = true
            · rw [if_pos h4, if_pos h4]
            · rw [if_neg h4, if_neg h4]
              by_cases h5 : isArrayV a = isArrayV b
              · rw [h5]
                have hbne2 : ¬((isArrayV b != isArrayV b) = true) := by simp
                rw [if_neg hbne2, if_neg hbne2]
                by_cases h6 : isArrayV b = true
                · rw [if_pos h6, if_pos h6]
                  have h6a : isArrayV a = true := by rw [h5]; exact h6
                  obtain ⟨ia, es, rfl⟩ : ∃ ia es, a = varr ia es := by
                    cases a <;> first
                      | exact ⟨_, _, rfl⟩
                      | simp [isArrayV] at h6a
                  obtain ⟨ib, fs, rfl⟩ : ∃ ib fs, b = varr ib fs := by
                    cases b <;> first
                      | exact ⟨_, _, rfl⟩
                      | simp [isArrayV] at h6
                  show zipAllB (fun x y => equalsFuel n x y) es fs
                    = zipAllB (fun x y => equalsFuel n x y) fs es
                  have hz : ∀ (u v : ValList),
                      zipAllB (fun x y => equalsFuel n x y) u v
                      = zipAllB (fun x y => equalsFuel n x y) v u := by
                    intro u
                    induction u using valListInd with
                    | hn => intro v; cases v <;> rfl
                    | hc x xs ihx =>
                        intro v
                        cases v with
                        | nil => rfl
                        | cons y ys =>
                            simp only [zipAllB, ih x y, ihx ys]
                  exact hz es fs
                · rw [if_neg h6, if_neg h6]
                  have hkeysw :
                      equalsFuel n (strArr 0 (sortStrings (jsKeys a)))
                        (strArr 1 (sortStrings (jsKeys b)))
                      = equalsFuel n (strArr 0 (sortStrings (jsKeys b)))
                        (strArr 1 (sortStrings (jsKeys a))) := by
                    rw [ih]
                    exact equalsFuel_strArr_ids n _ _ 1 0 0 1
                      (by omega) (by omega)
                  by_cases h7 : equalsFuel n (strArr 0 (sortStrings (jsKeys a)))
                      (strArr 1 (sortStrings (jsKeys b))) = true
                  · have h7b : equalsFuel n (strArr 0 (sortStrings (jsKeys b)))
                        (strArr 1 (sortStrings (jsKeys a))) = true := by
                      rw [← hkeysw]; exact h7
                    rw [h7, h7b]
                    simp only [Bool.not_true, Bool.false_eq_true, if_false]
                    have hkeq : sortStrings (jsKeys a)
                        = sortStrings (jsKeys b) :=
                      eqStrArr_true_imp n _ _ 0 1 (by omega) h7
                    rw [hkeq]
                    have hall : ∀ ks : List String,
                        (ks.all fun k =>
                          equalsFuel n (getProp a k) (getProp b k))
                        = (ks.all fun k =>
                            equalsFuel n (getProp b k) (getProp a k)) := by
                      intro ks
                      induction ks with
                      | nil => rfl
                      | cons k rest ihk => simp only [List.all_cons, ih, ihk]
                    exact hall _
                  · have h7f : equalsFuel n (strArr 0 (sortStrings (jsKeys a)))
                        (strArr 1 (sortStrings (jsKeys b))) = false := by
                      cases hx : equalsFuel n
                          (strArr 0 (sortStrings (jsKeys a)))
                          (strArr 1 (sortStrings (jsKeys b)))
                      · rfl
                      · exact absurd hx h7
                    have h7bf : equalsFuel n
                        (strArr 0 (sortStrings (jsKeys b)))
                        (strArr 1 (sortStrings (jsKeys a))) = false := by
                      rw [← hkeysw]; exact h7f
                    rw [h7f, h7bf]
                    rfl
              · have hL : (isArrayV a != isArrayV b) = true := by
                  simp [bne, h5]
                have hR : (isArrayV b != isArrayV a) = true := by
                  simp [bne, Ne.symm h5]
                rw [if_pos hL, if_pos hR]
          · have hL : (typeofV a != typeofV b) = true := by
              simp [bne, h3]
            have hR : (typeofV b != typeofV a) = true := by
              simp [bne, Ne.symm h3]
            rw [if_pos hL, if_pos hR]

/-- C9.  `equals` is symmetric: for every pair of (acyclic tree) values,
`equals(a, b)` returns the same result as `equals(b, a)`. -/
theorem claim_C9_equals_symm (a b : Val) : equals a b = equals b a := by
  unfold equals
  rw [Nat.add_comm]
  exact equalsFuel_symm _ a b

/-- C4.  `equals` compares plain objects independently of key insertion
order (any permutation of the key/value bindings, duplicate-free keys,
compares equal) but compares arrays order-sensitively:
`equals({a:1,b:2},{b:2,a:1})` is true, `equals([1,2],[2,1])` is false,
`equals([1,2,3],[1,2,3])` is true. -/
theorem claim_C4_equals :
    (∀ (i j : Nat) (f g : FieldList),
        (toPairs f).Perm (toPairs g) → (keysOfF f).Nodup →
        equals (vobj i f) (vobj j g) = true)
    ∧ equals (vobj 0 (.cons "a" (vnum 1) (.cons "b" (vnum 2) .nil)))
        (vobj 1 (.cons "b" (vnum 2) (.cons "a" (vnum 1) .nil))) = true
    ∧ equals (varr 0 (.cons (vnum 1) (.cons (vnum 2) .nil)))
        (varr 1 (.cons (vnum 2) (.cons (vnum 1) .nil))) = false
    ∧ equals (varr 0 (.cons (vnum 1) (.cons (vnum 2) (.cons (vnum 3) .nil))))
        (varr 1 (.cons (vnum 1) (.cons (vnum 2) (.cons (vnum 3) .nil))))
      = true := by
  refine ⟨?_, by decide, by decide, by decide⟩
  intro i j f g hperm hnd
  unfold equals
  apply equalsFuel_obj_perm _ _ _ _ _ hperm hnd
  simp only [vsize]
  omega

/-- Witness for C4: key-order independence applied to the concrete
permuted objects `{a:1,b:2}` and `{b:2,a:1}`. -/
theorem claim_C4_equals_witness :
    equals (vobj 5 (.cons "a" (vnum 1) (.cons "b" (vnum 2) .nil)))
      (vobj 7 (.cons "b" (vnum 2) (.cons "a" (vnum 1) .nil))) = true :=
  claim_C4_equals.1 5 7 _ _
    (by
      rw [show toPairs (.cons "a" (vnum 1) (.cons "b" (vnum 2) .nil))
          = [("a", vnum 1), ("b", vnum 2)] from rfl,
        show toPairs (.cons "b" (vnum 2) (.cons "a" (vnum 1) .nil))
          = [("b", vnum 2), ("a", vnum 1)] from rfl]
      exact List.Perm.swap _ _ _)
    (by decide)

/-- Witness for C5: the amended characterization applied at concrete
inputs, with every hypothesis discharged by computation. -/
theorem claim_C5_mixin_witness :
    isObjectLiteral (vnum 7) = false
    ∧ mixin (vnum 7) (vobj 0 .nil) true = vobj 0 .nil
    ∧ (keysOfF (FieldList.cons "a" (vnum 2) .nil)).Nodup
    ∧ getProp (mixin (vobj 0 (.cons "a" (vnum 1) .nil))
        (vobj 1 (.cons "a" (vnum 2) .nil)) true) "a" = vnum 2 :=
  ⟨by decide, claim_C5_mixin.1 (vnum 7) (vobj 0 .nil) true (by decide),
   by decide, by
    have h := claim_C5_mixin.2.2.1 0 1 (.cons "a" (vnum 1) .nil)
      (.cons "a" (vnum 2) .nil) true "a" (by decide)
    rw [h]
    decide⟩

/-! ## deepClone lemmas and claim C1 -/

theorem deepClone_varr_eq (i : Nat) (es : ValList) (c : Nat) :
    deepClone (varr i es) c
      = (varr c (deepCloneL es (c + 1)).1, (deepCloneL es (c + 1)).2) := rfl

theorem deepClone_vobj_eq (i : Nat) (fs : FieldList) (c : Nat) :
    deepClone (vobj i fs) c
      = (vobj c (deepCloneF fs (c + 1)).1, (deepCloneF fs (c + 1)).2) := rfl

/-- First component of the per-key clone step: copying a non-object value
verbatim agrees with `deepClone`, which returns such values unchanged. -/
theorem cloneStep_fst (v : Val) (c : Nat) :
    (if truthy v && (typeofV v == "object") then deepClone v c
      else (v, c)).1 = (deepClone v c).1 := by
  cases v <;> simp [truthy, typeofV, deepClone]

theorem deepCloneL_cons_eq (v : Val) (rest : ValList) (c : Nat) :
    deepCloneL (.cons v rest) c
      = (.cons (if truthy v && (typeofV v == "object") then deepClone v c
          else (v, c)).1
          (deepCloneL rest (if truthy v && (typeofV v == "object")
            then deepClone v c else (v, c)).2).1,
         (deepCloneL rest (if truthy v && (typeofV v == "object")
            then deepClone v c else (v, c)).2).2) := rfl

theorem deepCloneF_cons_eq (k : String) (v : Val) (rest : FieldList)
    (c : Nat) :
    deepCloneF (.cons k v rest) c
      = (.cons k (if truthy v && (typeofV v == "object") then deepClone v c
          else (v, c)).1
          (deepCloneF rest (if truthy v && (typeofV v == "object")
            then deepClone v c else (v, c)).2).1,
         (deepCloneF rest (if truthy v && (typeofV v == "object")
            then deepClone v c else (v, c)).2).2) := rfl

/-- Cloning preserves the key list of a plain object. -/
theorem keysOfF_deepCloneF (f : FieldList) :
    ∀ c, keysOfF (deepCloneF f c).1 = keysOfF f := by
  induction f using fieldListInd with
  | hn => intro c; rfl
  | hc k v rest ih =>
      intro c
      rw [deepCloneF_cons_eq]
      simp only [keysOfF, ih]

/-- Cloning preserves structural sizes (so the `equals` fuel budget of a
value and its clone are equal). -/
theorem deepClone_size :
    (∀ v : Val, ∀ c, vsize (deepClone v c).1 = vsize v)
    ∧ (∀ l : ValList, ∀ c, lsize (deepCloneL l c).1 = lsize l)
    ∧ (∀ f : FieldList, ∀ c, fsize (deepCloneF f c).1 = fsize f) := by
  refine valMutualInd ?_ ?_ ?_ ?_ ?_ ?_ ?_ ?_ ?_ ?_ ?_ ?_
  · intro c; rfl
  · intro c; rfl
  · intro b c; rfl
  · intro n c; rfl
  · intro s c; rfl
  · intro i c; rfl
  · intro i es ihQ c
    rw [deepClone_varr_eq]
    simp only [vsize, ihQ]
  · intro i fs ihR c
    rw [deepClone_vobj_eq]
    simp only [vsize, ihR]
  · intro c; rfl
  · intro v rest ihP ihQ c
    rw [deepCloneL_cons_eq]
    simp only [lsize]
    rw [cloneStep_fst, ihP, ihQ]
  · intro c; rfl
  · intro k v rest ihP ihR c
    rw [deepCloneF_cons_eq]
    simp only [fsize]
    rw [cloneStep_fst, ihP, ihR]

/-- The clone's mapping/sequence nodes all receive fresh ids drawn at or
above the starting counter, and the counter never decreases. -/
theorem deepClone_ids :
    (∀ v : Val, ∀ c, c ≤ (deepClone v c).2
      ∧ ∀ j ∈ arrObjIds (deepClone v c).1, c ≤ j)
    ∧ (∀ l : ValList, ∀ c, c ≤ (deepCloneL l c).2
      ∧ ∀ j ∈ arrObjIdsL (deepCloneL l c).1, c ≤ j)
    ∧ (∀ f : FieldList, ∀ c, c ≤ (deepCloneF f c).2
      ∧ ∀ j ∈ arrObjIdsF (deepCloneF f c).1, c ≤ j) := by
  refine valMutualInd ?_ ?_ ?_ ?_ ?_ ?_ ?_ ?_ ?_ ?_ ?_ ?_
  · intro c; exact ⟨Nat.le_refl c, by simp [deepClone, arrObjIds]⟩
  · intro c; exact ⟨Nat.le_refl c, by simp [deepClone, arrObjIds]⟩
  · intro b c; exact ⟨Nat.le_refl c, by simp [deepClone, arrObjIds]⟩
  · intro n c; exact ⟨Nat.le_refl c, by simp [deepClone, arrObjIds]⟩
  · intro s c; exact ⟨Nat.le_refl c, by simp [deepClone, arrObjIds]⟩
  · intro i c; exact ⟨Nat.le_refl c, by simp [deepClone, arrObjIds]⟩
  · intro i es ihQ c
    rw [deepClone_varr_eq]
    obtain ⟨h1, h2⟩ := ihQ (c + 1)
    refine ⟨by omega, ?_⟩
    intro j hj
    simp only [arrObjIds, List.mem_cons] at hj
    rcases hj with hj | hj
    · omega
    · have := h2 j hj
      omega
  · intro i fs ihR c
    rw [deepClone_vobj_eq]
    obtain ⟨h1, h2⟩ := ihR (c + 1)
    refine ⟨by omega, ?_⟩
    intro j hj
    simp only [arrObjIds, List.mem_cons] at hj
    rcases hj with hj | hj
    · omega
    · have := h2 j hj
      omega
  · intro c; exact ⟨Nat.le_refl c, by simp [deepCloneL, arrObjIdsL]⟩
  · intro v rest ihP ihQ c
    rw [deepCloneL_cons_eq]
    by_cases hcond : (truthy v && (typeofV v == "object")) = true
    · simp only [hcond, if_pos]
      obtain ⟨hv1, hv2⟩ := ihP c
      obtain ⟨hr1, hr2⟩ := ihQ (deepClone v c).2
      refine ⟨by omega, ?_⟩
      intro j hj
      simp only [arrObjIdsL, List.mem_append] at hj
      rcases hj with hj | hj
      · exact hv2 j hj
      · have := hr2 j hj
        omega
    · simp only [hcond, Bool.false_eq_true, if_false]
      obtain ⟨hr1, hr2⟩ := ihQ c
      have hids : arrObjIds v = [] := by
        cases v <;> simp_all [truthy, typeofV, arrObjIds]
      refine ⟨hr1, ?_⟩
      intro j hj
      simp only [arrObjIdsL, List.mem_append, hids] at hj
      rcases hj with hj | hj
      · simp at hj
      · exact hr2 j hj
  · intro c; exact ⟨Nat.le_refl c, by simp [deepCloneF, arrObjIdsF]⟩
  · intro k v rest ihP ihR c
    rw [deepCloneF_cons_eq]
    by_cases hcond : (truthy v && (typeofV v == "object")) = true
    · simp only [hcond, if_pos]
      obtain ⟨hv1, hv2⟩ := ihP c
      obtain ⟨hr1, hr2⟩ := ihR (deepClone v c).2
      refine ⟨by omega, ?_⟩
      intro j hj
      simp only [arrObjIdsF, List.mem_append] at hj
      rcases hj with hj | hj
      · exact hv2 j hj
      · have := hr2 j hj
        omega
    · simp only [hcond, Bool.false_eq_true, if_false]
      obtain ⟨hr1, hr2⟩ := ihR c
      have hids : arrObjIds v = [] := by
        cases v <;> simp_all [truthy, typeofV, arrObjIds]
      refine ⟨hr1, ?_⟩
      intro j hj
      simp only [arrObjIdsF, List.mem_append, hids] at hj
      rcases hj with hj | hj
      · simp at hj
      · exact hr2 j hj

/-- A value compares deep-equal to its clone, at any fuel at least twice
its size. -/
theorem equalsFuel_deepClone :
    (∀ v : Val, ∀ c fuel, 2 * vsize v ≤ fuel →
      equalsFuel fuel v (deepClone v c).1 = true)
    ∧ (∀ l : ValList, ∀ c fuel, 2 * lsize l ≤ fuel →
      zipAllB (fun a b => equalsFuel fuel a b) l (deepCloneL l c).1 = true)
    ∧ (∀ f : FieldList, ∀ c fuel k w, 2 * fsize f ≤ fuel →
      lookupField f k = some w →
      equalsFuel fuel w (getField (deepCloneF f c).1 k) = true) := by
  refine valMutualInd ?_ ?_ ?_ ?_ ?_ ?_ ?_ ?_ ?_ ?_ ?_ ?_
  · intro c fuel h; exact equalsFuel_refl fuel _ (by simp [vsize] at h; omega)
  · intro c fuel h; exact equalsFuel_refl fuel _ (by simp [vsize] at h; omega)
  · intro b c fuel h
    exact equalsFuel_refl fuel _ (by simp [vsize] at h; omega)
  · intro n c fuel h
    exact equalsFuel_refl fuel _ (by simp [vsize] at h; omega)
  · intro s c fuel h
    exact equalsFuel_refl fuel _ (by simp [vsize] at h; omega)
  · intro i c fuel h
    exact equalsFuel_refl fuel _ (by simp [vsize] at h; omega)
  · intro i es ihQ c fuel h
    rw [deepClone_varr_eq]
    simp only [vsize] at h
    obtain ⟨m, rfl⟩ : ∃ m, fuel = m + 1 := ⟨fuel - 1, by omega⟩
    by_cases hic : (i == c) = true
    · simp [equalsFuel, jsEq, hic]
    · have hz := ihQ (c + 1) m (by omega)
      simp [equalsFuel, jsEq, hic, typeofV, isArrayV, hz]
  · intro i fs ihR c fuel h
    rw [deepClone_vobj_eq]
    simp only [vsize] at h
    obtain ⟨m, rfl⟩ : ∃ m, fuel = m + 1 := ⟨fuel - 1, by omega⟩
    by_cases hic : (i == c) = true
    · simp [equalsFuel, jsEq, hic]
    · have hkeys : sortStrings (jsKeys (vobj c (deepCloneF fs (c + 1)).1))
          = sortStrings (jsKeys (vobj i fs)) := by
        simp only [jsKeys, keysOfF_deepCloneF]
      have hstr := eqStrArr_refl m (by omega)
        (sortStrings (jsKeys (vobj i fs)))
      have hall : ((sortStrings (jsKeys (vobj i fs))).all fun k =>
          equalsFuel m (getProp (vobj i fs) k)
            (getProp (vobj c (deepCloneF fs (c + 1)).1) k)) = true := by
        rw [List.all_eq_true]
        intro k hk
        have hkmem : k ∈ keysOfF fs := by
          have := (sortStrings_perm (jsKeys (vobj i fs))).mem_iff.mp hk
          simpa [jsKeys] using this
        obtain ⟨w, hw⟩ : ∃ w, lookupField fs k = some w := by
          have hck := (containsKey_iff_mem_keys fs k).mpr hkmem
          cases hl : lookupField fs k
          · simp [containsKey, hl] at hck
          · exact ⟨_, rfl⟩
        have h1 : getProp (vobj i fs) k = w := by
          simp [getProp, getField, hw]
        have h2 := ihR (c + 1) m k w (by omega) hw
        rw [h1]
        exact h2
      simp [equalsFuel, jsEq, hic, typeofV, isArrayV, jsKeys] at hkeys hall ⊢
      refine ⟨?_, hall⟩
      rw [keysOfF_deepCloneF fs (c + 1)]
      simpa [jsKeys] using hstr
  · intro c fuel h; rfl
  · intro v rest ihP ihQ c fuel h
    rw [deepCloneL_cons_eq]
    simp only [lsize] at h
    simp only [zipAllB]
    rw [cloneStep_fst, ihP c fuel (by omega), ihQ _ fuel (by omega)]
    rfl
  · intro c fuel k w h hw; simp [lookupField] at hw
  · intro k0 v0 rest ihP ihR c fuel k w h hw
    rw [deepCloneF_cons_eq]
    simp only [fsize] at h
    by_cases hkk : k0 = k
    · subst hkk
      have hw0 : w = v0 := by
        simp [lookupField] at hw
        exact hw.symm
      rw [hw0]
      rw [show getField (.cons k0 (if truthy v0 && (typeofV v0 == "object")
          then deepClone v0 c else (v0, c)).1
          (deepCloneF rest (if truthy v0 && (typeofV v0 == "object")
            then deepClone v0 c else (v0, c)).2).1) k0
          = (if truthy v0 && (typeofV v0 == "object")
            then deepClone v0 c else (v0, c)).1 from by
        simp [getField, lookupField]]
      rw [cloneStep_fst]
      exact ihP c fuel (by omega)
    · rw [show getField (.cons k0 (if truthy v0 && (typeofV v0 == "object")
          then deepClone v0 c else (v0, c)).1
          (deepCloneF rest (if truthy v0 && (typeofV v0 == "object")
            then deepClone v0 c else (v0, c)).2).1) k
          = getField (deepCloneF rest (if truthy v0
            && (typeofV v0 == "object")
            then deepClone v0 c else (v0, c)).2).1 k from by
        simp [getField, lookupField, hkk]]
      have hwrest : lookupField rest k = some w := by
        simpa [lookupField, hkk] using hw
      exact ihR _ fuel k w (by omega) hwrest

/-- C1.  For every acyclic value `x` whose reference ids lie below the
fresh-id counter, `deepClone` produces a `y` with `equals(x, y)` true and
with every mapping/sequence node of `y` carrying an id that occurs
nowhere in `x` (arrays and plain objects are recreated; regexps and
primitives are returned by reference/value, hence compare `===`-equal). -/
theorem claim_C1_deepClone (x : Val) (fresh : Nat)
    (hfresh : ∀ i ∈ allIds x, i < fresh) :
    equals x (deepClone x fresh).1 = true
    ∧ ∀ j ∈ arrObjIds (deepClone x fresh).1, j ∉ allIds x := by
  constructor
  · unfold equals
    apply equalsFuel_deepClone.1 x fresh
    rw [deepClone_size.1 x fresh]
    omega
  · intro j hj hmem
    have hge := (deepClone_ids.1 x fresh).2 j hj
    have hlt := hfresh j hmem
    omega

/-- Witness for C1: the clone of `{a:[1], r:/r/}` with counter 3 compares
equal to the original and re-allocates exactly the mapping/sequence
nodes. -/
theorem claim_C1_deepClone_witness :
    equals (vobj 0 (.cons "a" (varr 1 (.cons (vnum 1) .nil))
        (.cons "r" (vregexp 2) .nil)))
      (deepClone (vobj 0 (.cons "a" (varr 1 (.cons (vnum 1) .nil))
        (.cons "r" (vregexp 2) .nil))) 3).1 = true
    ∧ ∀ j ∈ arrObjIds (deepClone (vobj 0 (.cons "a"
        (varr 1 (.cons (vnum 1) .nil)) (.cons "r" (vregexp 2) .nil))) 3).1,
      j ∉ allIds (vobj 0 (.cons "a" (varr 1 (.cons (vnum 1) .nil))
        (.cons "r" (vregexp 2) .nil))) :=
  claim_C1_deepClone _ 3 (by decide)


/-! ## cloneAndChange: null/undefined handling (claim C10) -/

/-- The changer is never consulted for `null`/`undefined` nodes: the
whole run is unchanged when the two changers agree on every non-nullish
value. -/
theorem cloneACFuel_changer_congr :
    ∀ (fuel : Nat) (h : Heap) (c1 c2 : JSVal → Option JSVal),
      (∀ w, isNullish w = false → c1 w = c2 w) →
      ∀ (v : JSVal) (enc : List Nat),
      cloneACFuel fuel h c1 v enc = cloneACFuel fuel h c2 v enc := by
  intro fuel
  induction fuel with
  | zero => intro h c1 c2 hc v enc; rfl
  | succ n ih =>
      intro h c1 c2 hc v enc
      have hrec : cloneACFuel n h c1 = cloneACFuel n h c2 :=
        funext fun v2 => funext fun enc2 => ih h c1 c2 hc v2 enc2
      simp only [cloneACFuel]
      rw [hrec]
      by_cases hnul : isNullish v = true
      · rw [if_pos hnul, if_pos hnul]
      · have hfalse : isNullish v = false := by
          cases hx : isNullish v
          · rfl
          · exact absurd hx hnul
        rw [if_neg hnul, if_neg hnul, hc v hfalse]

/-- C10.  `cloneAndChange` returns a `null`/`undefined` node unchanged —
at the root and (because `_cloneAndChange` is the function called at
every nested position, with the current `encounteredObjects` stack) at
any nested position — without ever invoking the changer on it: runs with
changers that differ only at `null`/`undefined` coincide. -/
theorem claim_C10_cloneAndChange_null :
    (∀ (fuel : Nat) (h : Heap) (changer : JSVal → Option JSVal)
        (enc : List Nat), 0 < fuel →
        cloneACFuel fuel h changer JSVal.vnull enc
          = some (Except.ok (CVal.leaf JSVal.vnull))
        ∧ cloneACFuel fuel h changer JSVal.vundef enc
          = some (Except.ok (CVal.leaf JSVal.vundef)))
    ∧ (∀ (fuel : Nat) (h : Heap) (changer : JSVal → Option JSVal),
        0 < fuel →
        cloneAndChange fuel h changer JSVal.vnull
          = some (Except.ok (CVal.leaf JSVal.vnull))
        ∧ cloneAndChange fuel h changer JSVal.vundef
          = some (Except.ok (CVal.leaf JSVal.vundef)))
    ∧ (∀ (fuel : Nat) (h : Heap) (c1 c2 : JSVal → Option JSVal)
        (v : JSVal) (enc : List Nat),
        (∀ w, isNullish w = false → c1 w = c2 w) →
        cloneACFuel fuel h c1 v enc = cloneACFuel fuel h c2 v enc) := by
  refine ⟨?_, ?_, fun fuel h c1 c2 v enc hc =>
    cloneACFuel_changer_congr fuel h c1 c2 hc v enc⟩
  · intro fuel h changer enc hfuel
    obtain ⟨n, rfl⟩ : ∃ n, fuel = n + 1 := ⟨fuel - 1, by omega⟩
    exact ⟨rfl, rfl⟩
  · intro fuel h changer hfuel
    obtain ⟨n, rfl⟩ : ∃ n, fuel = n + 1 := ⟨fuel - 1, by omega⟩
    exact ⟨rfl, rfl⟩

/-- Witness for C10: a changer that fires on everything still returns
`null` unchanged, and a changer differing from the trivial one only at
`null` yields an identical run on a non-null input. -/
theorem claim_C10_cloneAndChange_null_witness :
    cloneACFuel 1 [] (fun _ => some (JSVal.vnum 9)) JSVal.vnull []
      = some (Except.ok (CVal.leaf JSVal.vnull))
    ∧ cloneACFuel 3 []
        (fun w => if w = JSVal.vnull then some (JSVal.vstr "x") else none)
        (JSVal.vstr "s") []
      = cloneACFuel 3 [] (fun _ => none) (JSVal.vstr "s") [] :=
  ⟨(claim_C10_cloneAndChange_null.1 1 [] (fun _ => some (JSVal.vnum 9)) []
      (by omega)).1,
   claim_C10_cloneAndChange_null.2.2 3 []
     (fun w => if w = JSVal.vnull then some (JSVal.vstr "x") else none)
     (fun _ => none) (JSVal.vstr "s") []
     (by
      intro w hw
      cases w <;> simp_all [isNullish])⟩

/-! ## cloneAndChange: the recursion error (claim C2) -/

/-- Fold step of the array branch of `_cloneAndChange` (element loop
building `r1`), named for reasoning. -/
def cloneStepArr (n : Nat) (h : Heap) (ch : JSVal → Option JSVal)
    (enc : List Nat) :
    Option (Except String (List CVal)) → JSVal →
      Option (Except String (List CVal)) :=
  fun acc e =>
    match acc with
    | some (Except.ok r1) =>
      match cloneACFuel n h ch e enc with
      | some (Except.ok c) => some (Except.ok (r1 ++ [c]))
      | some (Except.error msg) => some (Except.error msg)
      | none => none
    | other => other

/-- Fold step of the object branch of `_cloneAndChange` (key loop
building `r2`), named for reasoning. -/
def cloneStepObj (n : Nat) (h : Heap) (ch : JSVal → Option JSVal)
    (enc : List Nat) :
    Option (Except String (List (String × CVal))) → (String × JSVal) →
      Option (Except String (List (String × CVal))) :=
  fun acc kv =>
    match acc with
    | some (Except.ok r2) =>
      match cloneACFuel n h ch kv.2 enc with
      | some (Except.ok c) => some (Except.ok (r2 ++ [(kv.1, c)]))
      | some (Except.error msg) => some (Except.error msg)
      | none => none
    | other => other

theorem cloneACFuel_arr_eq (n : Nat) (h : Heap) (ch : JSVal → Option JSVal)
    (i : Nat) (enc : List Nat) (elems : List JSVal) (fr : Bool)
    (hl : lookupH h i = some ⟨.arr elems, fr⟩)
    (hch : ch (.ref i) = none) :
    cloneACFuel (n + 1) h ch (.ref i) enc
      = (match elems.foldl (cloneStepArr n h ch enc) (some (Except.ok [])) with
        | some (Except.ok r1) => some (Except.ok (CVal.carr r1))
        | some (Except.error msg) => some (Except.error msg)
        | none => none) := by
  simp [cloneACFuel, isNullish, hch, isArrayH, hl]
  try rfl

theorem cloneACFuel_obj_throw (n : Nat) (h : Heap) (ch : JSVal → Option JSVal)
    (i : Nat) (enc : List Nat) (fields : List (String × JSVal)) (fr : Bool)
    (hl : lookupH h i = some ⟨.obj fields, fr⟩)
    (hch : ch (.ref i) = none) (henc : enc.contains i = true) :
    cloneACFuel (n + 1) h ch (.ref i) enc
      = some (Except.error "Cannot clone recursive data-structure") := by
  have hmem : i ∈ enc := List.elem_iff.mp henc
  simp [cloneACFuel, isNullish, hch, isArrayH, isObjectLiteralH, hl, hmem]

theorem cloneACFuel_obj_eq (n : Nat) (h : Heap) (ch : JSVal → Option JSVal)
    (i : Nat) (enc : List Nat) (fields : List (String × JSVal)) (fr : Bool)
    (hl : lookupH h i = some ⟨.obj fields, fr⟩)
    (hch : ch (.ref i) = none) (henc : enc.contains i = false) :
    cloneACFuel (n + 1) h ch (.ref i) enc
      = (match fields.foldl (cloneStepObj n h ch (enc ++ [i]))
          (some (Except.ok [])) with
        | some (Except.ok r2) => some (Except.ok (CVal.cobj r2))
        | some (Except.error msg) => some (Except.error msg)
        | none => none) := by
  have hnmem : i ∉ enc := by
    intro hc
    have h2 : enc.contains i = true := List.elem_iff.mpr hc
    rw [h2] at henc
    exact Bool.noConfusion henc
  simp [cloneACFuel, isNullish, hch, isArrayH, isObjectLiteralH, hl, hnmem]
  try rfl

theorem cloneStepArr_fold_none (n : Nat) (h : Heap)
    (ch : JSVal → Option JSVal) (enc : List Nat) :
    ∀ rest : List JSVal, rest.foldl (cloneStepArr n h ch enc) none = none := by
  intro rest
  induction rest with
  | nil => rfl
  | cons a l ih => rw [List.foldl_cons]; exact ih

theorem cloneStepArr_fold_err_const (n : Nat) (h : Heap)
    (ch : JSVal → Option JSVal) (enc : List Nat) (msg : String) :
    ∀ rest : List JSVal,
      rest.foldl (cloneStepArr n h ch enc) (some (Except.error msg))
        = some (Except.error msg) := by
  intro rest
  induction rest with
  | nil => rfl
  | cons a l ih => rw [List.foldl_cons]; exact ih

theorem cloneStepObj_fold_none (n : Nat) (h : Heap)
    (ch : JSVal → Option JSVal) (enc : List Nat) :
    ∀ rest : List (String × JSVal),
      rest.foldl (cloneStepObj n h ch enc) none = none := by
  intro rest
  induction rest with
  | nil => rfl
  | cons a l ih => rw [List.foldl_cons]; exact ih

theorem cloneStepObj_fold_err_const (n : Nat) (h : Heap)
    (ch : JSVal → Option JSVal) (enc : List Nat) (msg : String) :
    ∀ rest : List (String × JSVal),
      rest.foldl (cloneStepObj n h ch enc) (some (Except.error msg))
        = some (Except.error msg) := by
  intro rest
  induction rest with
  | nil => rfl
  | cons a l ih => rw [List.foldl_cons]; exact ih

/-- A fold of the array step starting from a success either stays a
success or inherits an error produced by a recursive clone of one of the
elements. -/
theorem cloneStepArr_fold_error (n : Nat) (h : Heap)
    (ch : JSVal → Option JSVal) (enc : List Nat) :
    ∀ (elems : List JSVal) (r1 : List CVal) (e : String),
      elems.foldl (cloneStepArr n h ch enc) (some (Except.ok r1))
        = some (Except.error e) →
      ∃ x ∈ elems, cloneACFuel n h ch x enc = some (Except.error e) := by
  intro elems
  induction elems with
  | nil => intro r1 e hfold; simp [List.foldl] at hfold
  | cons x rest ih =>
      intro r1 e hfold
      rw [List.foldl_cons] at hfold
      cases hx : cloneACFuel n h ch x enc with
      | none =>
          rw [show cloneStepArr n h ch enc (some (Except.ok r1)) x = none from
            by simp [cloneStepArr, hx]] at hfold
          rw [cloneStepArr_fold_none n h ch enc rest] at hfold
          exact absurd hfold (by simp)
      | some res =>
          cases res with
          | ok c =>
              rw [show cloneStepArr n h ch enc (some (Except.ok r1)) x
                  = some (Except.ok (r1 ++ [c])) from
                by simp [cloneStepArr, hx]] at hfold
              obtain ⟨y, hy, hyc⟩ := ih _ _ hfold
              exact ⟨y, by simp [hy], hyc⟩
          | error msg =>
              rw [show cloneStepArr n h ch enc (some (Except.ok r1)) x
                  = some (Except.error msg) from
                by simp [cloneStepArr, hx]] at hfold
              rw [cloneStepArr_fold_err_const n h ch enc msg rest] at hfold
              have : msg = e := by simpa using hfold
              exact ⟨x, by simp, this ▸ hx⟩

/-- Analogue of the previous lemma for the object-branch fold. -/
theorem cloneStepObj_fold_error (n : Nat) (h : Heap)
    (ch : JSVal → Option JSVal) (enc : List Nat) :
    ∀ (fields : List (String × JSVal)) (r2 : List (String × CVal))
      (e : String),
      fields.foldl (cloneStepObj n h ch enc) (some (Except.ok r2))
        = some (Except.error e) →
      ∃ kv ∈ fields, cloneACFuel n h ch kv.2 enc
        = some (Except.error e) := by
  intro fields
  induction fields with
  | nil => intro r2 e hfold; simp [List.foldl] at hfold
  | cons kv rest ih =>
      intro r2 e hfold
      rw [List.foldl_cons] at hfold
      cases hx : cloneACFuel n h ch kv.2 enc with
      | none =>
          rw [show cloneStepObj n h ch enc (some (Except.ok r2)) kv = none from
            by simp [cloneStepObj, hx]] at hfold
          rw [cloneStepObj_fold_none n h ch enc rest] at hfold
          exact absurd hfold (by simp)
      | some res =>
          cases res with
          | ok c =>
              rw [show cloneStepObj n h ch enc (some (Except.ok r2)) kv
                  = some (Except.ok (r2 ++ [(kv.1, c)])) from
                by simp [cloneStepObj, hx]] at hfold
              obtain ⟨y, hy, hyc⟩ := ih _ _ hfold
              exact ⟨y, by simp [hy], hyc⟩
          | error msg =>
              rw [show cloneStepObj n h ch enc (some (Except.ok r2)) kv
                  = some (Except.error msg) from
                by simp [cloneStepObj, hx]] at hfold
              rw [cloneStepObj_fold_err_const n h ch enc msg rest] at hfold
              have : msg = e := by simpa using hfold
              exact ⟨kv, by simp, this ▸ hx⟩

/-- The only error `_cloneAndChange` can ever produce is the recursion
error, with exactly this message. -/
theorem cloneACFuel_error_msg :
    ∀ (fuel : Nat) (h : Heap) (ch : JSVal → Option JSVal) (v : JSVal)
      (enc : List Nat) (e : String),
      cloneACFuel fuel h ch v enc = some (Except.error e) →
      e = "Cannot clone recursive data-structure" := by
  intro fuel
  induction fuel with
  | zero => intro h ch v enc e hrun; simp [cloneACFuel] at hrun
  | succ n ih =>
      intro h ch v enc e hrun
      by_cases hnul : isNullish v = true
      · rw [show cloneACFuel (n + 1) h ch v enc = some (Except.ok (CVal.leaf v))
          from by simp [cloneACFuel, hnul]] at hrun
        simp at hrun
      · have hnul2 : isNullish v = false := by
          cases hx : isNullish v
          · rfl
          · exact absurd hx hnul
        cases hch : ch v with
        | some w =>
            rw [show cloneACFuel (n + 1) h ch v enc
                = some (Except.ok (CVal.leaf w)) from by
              simp [cloneACFuel, hnul2, hch]] at hrun
            simp at hrun
        | none =>
            cases v with
            | ref i =>
                cases hl : lookupH h i with
                | none =>
                    rw [show cloneACFuel (n + 1) h ch (.ref i) enc
                        = some (Except.ok (CVal.leaf (.ref i))) from by
                      simp [cloneACFuel, hnul2, hch, isArrayH,
                        isObjectLiteralH, hl]] at hrun
                    simp at hrun
                | some node =>
                    obtain ⟨content, fr⟩ := node
                    cases content with
                    | regexp =>
                        rw [show cloneACFuel (n + 1) h ch (.ref i) enc
                            = some (Except.ok (CVal.leaf (.ref i))) from by
                          simp [cloneACFuel, hnul2, hch, isArrayH,
                            isObjectLiteralH, hl]] at hrun
                        simp at hrun
                    | arr elems =>
                        rw [cloneACFuel_arr_eq n h ch i enc elems fr hl hch]
                          at hrun
                        revert hrun
                        cases hfold : elems.foldl (cloneStepArr n h ch enc)
                            (some (Except.ok [])) with
                        | none => intro hrun; simp at hrun
                        | some res =>
                            cases res with
                            | ok r1 => intro hrun; simp at hrun
                            | error msg =>
                                intro hrun
                                have hme : msg = e := by simpa using hrun
                                subst hme
                                obtain ⟨x, _, hx⟩ :=
                                  cloneStepArr_fold_error n h ch enc elems []
                                    msg hfold
                                exact ih h ch x enc msg hx
                    | obj fields =>
                        cases henc : enc.contains i with
                        | true =>
                            rw [cloneACFuel_obj_throw n h ch i enc fields fr
                              hl hch henc] at hrun
                            simpa using hrun.symm
                        | false =>
                            rw [cloneACFuel_obj_eq n h ch i enc fields fr
                              hl hch henc] at hrun
                            revert hrun
                            cases hfold : fields.foldl
                                (cloneStepObj n h ch (enc ++ [i]))
                                (some (Except.ok [])) with
                            | none => intro hrun; simp at hrun
                            | some res =>
                                cases res with
                                | ok r2 => intro hrun; simp at hrun
                                | error msg =>
                                    intro hrun
                                    have hme : msg = e := by simpa using hrun
                                    subst hme
                                    obtain ⟨kv, _, hkv⟩ :=
                                      cloneStepObj_fold_error n h ch
                                        (enc ++ [i]) fields [] msg hfold
                                    exact ih h ch kv.2 (enc ++ [i]) msg hkv
            | vnull => simp [isNullish] at hnul2
            | vundef => simp [isNullish] at hnul2
            | vbool b =>
                rw [show cloneACFuel (n + 1) h ch (.vbool b) enc
                    = some (Except.ok (CVal.leaf (.vbool b))) from by
                  simp [cloneACFuel, hnul2, hch, isArrayH,
                    isObjectLiteralH]] at hrun
                simp at hrun
            | vnum m =>
                rw [show cloneACFuel (n + 1) h ch (.vnum m) enc
                    = some (Except.ok (CVal.leaf (.vnum m))) from by
                  simp [cloneACFuel, hnul2, hch, isArrayH,
                    isObjectLiteralH]] at hrun
                simp at hrun
            | vstr s =>
                rw [show cloneACFuel (n + 1) h ch (.vstr s) enc
                    = some (Except.ok (CVal.leaf (.vstr s))) from by
                  simp [cloneACFuel, hnul2, hch, isArrayH,
                    isObjectLiteralH]] at hrun
                simp at hrun

theorem cloneStepArr_fold_ok (n : Nat) (h : Heap)
    (ch : JSVal → Option JSVal) (enc : List Nat) :
    ∀ (elems : List JSVal) (r1 : List CVal),
      (∀ x ∈ elems, ∃ c, cloneACFuel n h ch x enc = some (Except.ok c)) →
      ∃ cs, elems.foldl (cloneStepArr n h ch enc) (some (Except.ok r1))
        = some (Except.ok cs) := by
  intro elems
  induction elems with
  | nil => intro r1 _; exact ⟨r1, rfl⟩
  | cons x rest ih =>
      intro r1 hall
      obtain ⟨c, hc⟩ := hall x (by simp)
      rw [List.foldl_cons,
        show cloneStepArr n h ch enc (some (Except.ok r1)) x
          = some (Except.ok (r1 ++ [c])) from by simp [cloneStepArr, hc]]
      exact ih _ (fun y hy => hall y (by simp [hy]))

theorem cloneStepObj_fold_ok (n : Nat) (h : Heap)
    (ch : JSVal → Option JSVal) (enc : List Nat) :
    ∀ (fields : List (String × JSVal)) (r2 : List (String × CVal)),
      (∀ kv ∈ fields, ∃ c, cloneACFuel n h ch kv.2 enc
        = some (Except.ok c)) →
      ∃ cs, fields.foldl (cloneStepObj n h ch enc) (some (Except.ok r2))
        = some (Except.ok cs) := by
  intro fields
  induction fields with
  | nil => intro r2 _; exact ⟨r2, rfl⟩
  | cons kv rest ih =>
      intro r2 hall
      obtain ⟨c, hc⟩ := hall kv (by simp)
      rw [List.foldl_cons,
        show cloneStepObj n h ch enc (some (Except.ok r2)) kv
          = some (Except.ok (r2 ++ [(kv.1, c)])) from by
            simp [cloneStepObj, hc]]
      exact ih _ (fun y hy => hall y (by simp [hy]))

/-- DAG certificate for a heap: a rank function strictly decreasing along
every reference edge from a node to one of its property values. -/
def RankOk (h : Heap) (rank : Nat → Nat) : Prop :=
  ∀ i nd, lookupH h i = some nd →
    ∀ j, JSVal.ref j ∈ propValues nd.content → rank j < rank i

/-- Rank of a value: one above its node's rank for references, zero for
primitives. -/
def rankVal (rank : Nat → Nat) : JSVal → Nat
  | .ref i => rank i + 1
  | _ => 0

/-- On a heap with a rank certificate (in particular: any acyclic object
graph, sibling sharing and equal-but-distinct nodes included),
`_cloneAndChange` never raises the recursion error — the walk succeeds
whenever the stack contains only object nodes of rank at least the
current value's. -/
theorem cloneACFuel_ok_of_rank :
    ∀ (fuel : Nat) (h : Heap) (ch : JSVal → Option JSVal)
      (rank : Nat → Nat) (v : JSVal) (enc : List Nat),
      RankOk h rank →
      (∀ j ∈ enc, isObjectLiteralH h (.ref j) = true →
        rankVal rank v ≤ rank j) →
      rankVal rank v < fuel →
      ∃ c, cloneACFuel fuel h ch v enc = some (Except.ok c) := by
  intro fuel
  induction fuel with
  | zero => intro h ch rank v enc _ _ hlt; omega
  | succ n ih =>
      intro h ch rank v enc hrk henc hlt
      by_cases hnul : isNullish v = true
      · exact ⟨CVal.leaf v, by simp [cloneACFuel, hnul]⟩
      · have hnul2 : isNullish v = false := by
          cases hx : isNullish v
          · rfl
          · exact absurd hx hnul
        cases hch : ch v with
        | some w => exact ⟨CVal.leaf w, by simp [cloneACFuel, hnul2, hch]⟩
        | none =>
            cases v with
            | vnull => simp [isNullish] at hnul2
            | vundef => simp [isNullish] at hnul2
            | vbool b =>
                exact ⟨CVal.leaf (JSVal.vbool b), by
                  simp [cloneACFuel, hnul2, hch, isArrayH, isObjectLiteralH]⟩
            | vnum m =>
                exact ⟨CVal.leaf (JSVal.vnum m), by
                  simp [cloneACFuel, hnul2, hch, isArrayH, isObjectLiteralH]⟩
            | vstr s =>
                exact ⟨CVal.leaf (JSVal.vstr s), by
                  simp [cloneACFuel, hnul2, hch, isArrayH, isObjectLiteralH]⟩
            | ref i =>
                cases hl : lookupH h i with
                | none =>
                    exact ⟨CVal.leaf (JSVal.ref i), by
                      simp [cloneACFuel, hnul2, hch, isArrayH,
                        isObjectLiteralH, hl]⟩
                | some node =>
                    obtain ⟨content, fr⟩ := node
                    cases content with
                    | regexp =>
                        exact ⟨CVal.leaf (JSVal.ref i), by
                          simp [cloneACFuel, hnul2, hch, isArrayH,
                            isObjectLiteralH, hl]⟩
                    | arr elems =>
                        have hchild : ∀ x ∈ elems, rankVal rank x ≤ rank i := by
                          intro x hx
                          cases x with
                          | ref jx =>
                              have := hrk i ⟨.arr elems, fr⟩ hl jx
                                (by simp [propValues]; exact hx)
                              simp [rankVal]
                              omega
                          | vnull => simp [rankVal]
                          | vundef => simp [rankVal]
                          | vbool b2 => simp [rankVal]
                          | vnum m2 => simp [rankVal]
                          | vstr s2 => simp [rankVal]
                        have hall : ∀ x ∈ elems,
                            ∃ c, cloneACFuel n h ch x enc
                              = some (Except.ok c) := by
                          intro x hx
                          apply ih h ch rank x enc hrk
                          · intro j hj hobj
                            have hvj := henc j hj hobj
                            have hxle := hchild x hx
                            simp only [rankVal] at hvj
                            omega
                          · have hxle := hchild x hx
                            simp only [rankVal] at hlt
                            omega
                        obtain ⟨cs, hcs⟩ :=
                          cloneStepArr_fold_ok n h ch enc elems [] hall
                        refine ⟨CVal.carr cs, ?_⟩
                        rw [cloneACFuel_arr_eq n h ch i enc elems fr hl hch,
                          hcs]
                    | obj fields =>
                        have hchild : ∀ kv ∈ fields,
                            rankVal rank kv.2 ≤ rank i := by
                          intro kv hkv
                          cases hkv2 : kv.2 with
                          | ref jx =>
                              have := hrk i ⟨.obj fields, fr⟩ hl jx
                                (by
                                  simp only [propValues]
                                  rw [← hkv2]
                                  exact List.mem_map_of_mem _ hkv)
                              simp [rankVal]
                              omega
                          | vnull => simp [rankVal]
                          | vundef => simp [rankVal]
                          | vbool b2 => simp [rankVal]
                          | vnum m2 => simp [rankVal]
                          | vstr s2 => simp [rankVal]
                        have hnotin : enc.contains i = false := by
                          cases hco : enc.contains i
                          · rfl
                          · exfalso
                            have hobj : isObjectLiteralH h (.ref i) = true := by
                              simp [isObjectLiteralH, hl]
                            have := henc i (List.elem_iff.mp hco) hobj
                            simp only [rankVal] at this
                            omega
                        have hall : ∀ kv ∈ fields,
                            ∃ c, cloneACFuel n h ch kv.2 (enc ++ [i])
                              = some (Except.ok c) := by
                          intro kv hkv
                          apply ih h ch rank kv.2 (enc ++ [i]) hrk
                          · intro j hj hobj
                            have hxle := hchild kv hkv
                            rcases List.mem_append.mp hj with hj2 | hj2
                            · have hvj := henc j hj2 hobj
                              simp only [rankVal] at hvj
                              omega
                            · have : j = i := by simpa using hj2
                              subst this
                              exact hxle
                          · have hxle := hchild kv hkv
                            simp only [rankVal] at hlt
                            omega
                        obtain ⟨cs, hcs⟩ :=
                          cloneStepObj_fold_ok n h ch (enc ++ [i]) fields []
                            hall
                        refine ⟨CVal.cobj cs, ?_⟩
                        rw [cloneACFuel_obj_eq n h ch i enc fields fr hl hch
                          hnotin, hcs]

/-- C2 (amended).  `cloneAndChange` throws exactly the error
`"Cannot clone recursive data-structure"` (capital C), and it does so
exactly when a plain-object node already on the current traversal path is
re-entered: every error the function can produce carries that message; on
any heap admitting a rank certificate (all acyclic graphs, hence all
sibling-shared or equal-but-distinct configurations — the stack is pushed
before and popped after each plain object's values, so it never leaks
across siblings) the run succeeds with no error; and on a directly
self-referential plain object it throws the error. -/
theorem claim_C2_cloneAndChange :
    (∀ (fuel : Nat) (h : Heap) (ch : JSVal → Option JSVal) (v : JSVal)
        (enc : List Nat) (e : String),
        cloneACFuel fuel h ch v enc = some (Except.error e) →
        e = "Cannot clone recursive data-structure")
    ∧ (∀ (fuel : Nat) (h : Heap) (ch : JSVal → Option JSVal)
        (rank : Nat → Nat) (v : JSVal),
        RankOk h rank → rankVal rank v < fuel →
        ∃ c, cloneAndChange fuel h ch v = some (Except.ok c))
    ∧ cloneAndChange 10 [(0, ⟨.obj [("a", .ref 0)], false⟩)] (fun _ => none)
        (.ref 0)
      = some (Except.error "Cannot clone recursive data-structure") := by
  refine ⟨cloneACFuel_error_msg, ?_, by rfl⟩
  intro fuel h ch rank v hrk hlt
  exact cloneACFuel_ok_of_rank fuel h ch rank v [] hrk
    (by intro j hj; simp at hj) hlt

/-- Counterexample to C2 as stated: the error thrown on a cyclic
structure is `"Cannot clone recursive data-structure"` with a capital C,
not the claimed all-lowercase `"cannot clone recursive data-structure"`. -/
theorem claim_C2_counterexample :
    cloneAndChange 10 [(0, ⟨.obj [("a", .ref 0)], false⟩)] (fun _ => none)
        (.ref 0)
      = some (Except.error "Cannot clone recursive data-structure")
    ∧ "Cannot clone recursive data-structure"
      ≠ "cannot clone recursive data-structure" :=
  ⟨rfl, by decide⟩

/-- Witness for C2: the error-message conjunct applied to the concrete
cyclic run, and the no-error conjunct applied to a heap with a
sibling-shared node (both `"a"` and `"b"` reference node 1). -/
theorem claim_C2_cloneAndChange_witness :
    ("Cannot clone recursive data-structure"
        = "Cannot clone recursive data-structure")
    ∧ (∃ c, cloneAndChange 5
        [(0, ⟨.obj [("a", .ref 1), ("b", .ref 1)], false⟩),
         (1, ⟨.obj [("x", .vnum 1)], false⟩)] (fun _ => none) (.ref 0)
      = some (Except.ok c)) :=
  ⟨claim_C2_cloneAndChange.1 10 [(0, ⟨.obj [("a", .ref 0)], false⟩)]
      (fun _ => none) (.ref 0) [] "Cannot clone recursive data-structure" rfl,
   claim_C2_cloneAndChange.2.1 5 _ (fun _ => none)
     (fun i => if i = 0 then 1 else 0) (.ref 0)
     (by
      intro i nd hl j hj
      by_cases h0 : i = 0
      · subst h0
        have hnd : nd = ⟨.obj [("a", .ref 1), ("b", .ref 1)], false⟩ := by
          have := hl
          simp [lookupH] at this
          exact this.symm
        subst hnd
        simp only [propValues, List.map_cons, List.map_nil] at hj
        have : j = 1 := by simpa using hj
        subst this
        simp
      · by_cases h1 : i = 1
        · subst h1
          have hnd : nd = ⟨.obj [("x", .vnum 1)], false⟩ := by
            have := hl
            simp [lookupH] at this
            exact this.symm
          subst hnd
          simp [propValues] at hj
        · have : lookupH
              [(0, (⟨.obj [("a", .ref 1), ("b", .ref 1)], false⟩ : Node)),
               (1, ⟨.obj [("x", .vnum 1)], false⟩)] i = none := by
            have h0s : ¬((0 : Nat) = i) := fun hc => h0 hc.symm
            have h1s : ¬((1 : Nat) = i) := fun hc => h1 hc.symm
            simp [lookupH, h0s, h1s]
          rw [this] at hl
          exact Option.noConfusion hl)
     (by simp [rankVal])⟩

/-! ## safeStringify: totality and the circular marker (claim C7) -/

/-- Number of heap entries whose id has not been recorded on the `seen`
list — the adequacy measure of the stringification fuel. -/
def unseenCount (h : Heap) (seen : List Nat) : Nat :=
  h.countP (fun p => !(decide (p.1 ∈ seen)))

theorem unseenCount_le_of_subset (h : Heap) (s1 s2 : List Nat)
    (hsub : ∀ x ∈ s1, x ∈ s2) :
    unseenCount h s2 ≤ unseenCount h s1 := by
  induction h with
  | nil => simp [unseenCount]
  | cons p rest ih =>
      simp only [unseenCount, List.countP_cons] at *
      by_cases h1 : p.1 ∈ s1
      · have h2 : p.1 ∈ s2 := hsub p.1 h1
        simp [h1, h2]
        omega
      · by_cases h2 : p.1 ∈ s2 <;> simp [h1, h2] <;> omega

theorem unseenCount_cons (p : Nat × Node) (rest : Heap) (seen : List Nat) :
    unseenCount (p :: rest) seen
      = unseenCount rest seen + (if p.1 ∈ seen then 0 else 1) := by
  simp only [unseenCount, List.countP_cons]
  by_cases hm : p.1 ∈ seen <;> simp [hm]

theorem unseenCount_append_lt (h : Heap) (seen : List Nat) (i : Nat)
    (nd : Node) (hl : lookupH h i = some nd) (hni : i ∉ seen) :
    unseenCount h (seen ++ [i]) < unseenCount h seen := by
  induction h with
  | nil => simp [lookupH] at hl
  | cons p rest ih =>
      obtain ⟨pk, pn⟩ := p
      have hle : unseenCount rest (seen ++ [i]) ≤ unseenCount rest seen :=
        unseenCount_le_of_subset rest seen (seen ++ [i])
          (fun x hx => by simp [hx])
      rw [unseenCount_cons, unseenCount_cons]
      by_cases hpi : pk = i
      · have hm1 : ((pk, pn) : Nat × Node).1 ∈ seen ++ [i] := by simp [hpi]
        have hm2 : ((pk, pn) : Nat × Node).1 ∉ seen :=
          fun hc => hni (hpi ▸ hc)
        rw [if_pos hm1, if_neg hm2]
        omega
      · rw [show lookupH ((pk, pn) :: rest) i
            = (if pk = i then some pn else lookupH rest i) from rfl,
          if_neg hpi] at hl
        have := ih hl
        have hiff : (((pk, pn) : Nat × Node).1 ∈ seen ++ [i])
            ↔ (((pk, pn) : Nat × Node).1 ∈ seen) := by
          simp [List.mem_append, hpi]
        by_cases hm : ((pk, pn) : Nat × Node).1 ∈ seen
        · rw [if_pos (hiff.mpr hm), if_pos hm]
          omega
        · rw [if_neg (fun hc => hm (hiff.mp hc)), if_neg hm]
          omega

/-- Fold step of the array serialization loop, named for reasoning. -/
def jsonStepArr (n : Nat) (h : Heap) :
    Option (List Nat × List String) → JSVal →
      Option (List Nat × List String) :=
  fun acc e =>
    match acc with
    | none => none
    | some (sn, parts) =>
      match jsonFuel n h sn e with
      | none => none
      | some (sn2, so) => some (sn2, parts ++ [so.getD "null"])

/-- Fold step of the object serialization loop, named for reasoning. -/
def jsonStepObj (n : Nat) (h : Heap) :
    Option (List Nat × List String) → (String × JSVal) →
      Option (List Nat × List String) :=
  fun acc kv =>
    match acc with
    | none => none
    | some (sn, parts) =>
      match jsonFuel n h sn kv.2 with
      | none => none
      | some (sn2, so) =>
          match so with
          | none => some (sn2, parts)
          | some str => some (sn2, parts ++ [quoteJSON kv.1 ++ ":" ++ str])

theorem jsonFuel_circular (n : Nat) (h : Heap) (seen : List Nat) (i : Nat)
    (hcond : (isObjectLiteralH h (.ref i) || isArrayH h (.ref i)) = true)
    (hin : seen.contains i = true) :
    jsonFuel (n + 1) h seen (.ref i)
      = some (seen, some (quoteJSON "[Circular]")) := by
  have hm : i ∈ seen := List.elem_iff.mp hin
  simp [jsonFuel, hcond, hm]

theorem jsonFuel_arr_eq (n : Nat) (h : Heap) (seen : List Nat) (i : Nat)
    (elems : List JSVal) (fr : Bool)
    (hl : lookupH h i = some ⟨.arr elems, fr⟩)
    (hin : seen.contains i = false) :
    jsonFuel (n + 1) h seen (.ref i)
      = (match elems.foldl (jsonStepArr n h) (some (seen ++ [i], [])) with
        | none => none
        | some (sn, parts) =>
            some (sn, some ("[" ++ joinComma parts ++ "]"))) := by
  have hm : i ∉ seen := by
    intro hc
    simp [hc] at hin
  simp [jsonFuel, isObjectLiteralH, isArrayH, hl, hm, jsonStepArr]
  try rfl

theorem jsonFuel_obj_eq (n : Nat) (h : Heap) (seen : List Nat) (i : Nat)
    (fields : List (String × JSVal)) (fr : Bool)
    (hl : lookupH h i = some ⟨.obj fields, fr⟩)
    (hin : seen.contains i = false) :
    jsonFuel (n + 1) h seen (.ref i)
      = (match fields.foldl (jsonStepObj n h) (some (seen ++ [i], [])) with
        | none => none
        | some (sn, parts) =>
            some (sn, some ("\x7b" ++ joinComma parts ++ "\x7d"))) := by
  have hm : i ∉ seen := by
    intro hc
    simp [hc] at hin
  simp [jsonFuel, isObjectLiteralH, isArrayH, hl, hm, jsonStepObj]
  try rfl

/-- Adequacy of the stringification fuel: with more fuel than unseen heap
entries, `jsonFuel` returns a result, only ever appends to the `seen`
list, and never increases the number of unseen entries. -/
theorem jsonFuel_adequate :
    ∀ (fuel : Nat) (h : Heap) (seen : List Nat) (v : JSVal),
      unseenCount h seen < fuel →
      ∃ sn so, jsonFuel fuel h seen v = some (sn, so)
        ∧ (∀ x ∈ seen, x ∈ sn)
        ∧ unseenCount h sn ≤ unseenCount h seen := by
  intro fuel
  induction fuel with
  | zero => intro h seen v hcnt; omega
  | succ n ih =>
      intro h seen v hcnt
      have hfold_arr : ∀ (elems : List JSVal) (sA : List Nat)
          (parts : List String), unseenCount h sA < n →
          ∃ sB pB, elems.foldl (jsonStepArr n h) (some (sA, parts))
            = some (sB, pB)
            ∧ (∀ x ∈ sA, x ∈ sB) ∧ unseenCount h sB ≤ unseenCount h sA := by
        intro elems
        induction elems with
        | nil => intro sA parts hA; exact ⟨sA, parts, rfl, fun x hx => hx,
            Nat.le_refl _⟩
        | cons e rest ihe =>
            intro sA parts hA
            obtain ⟨sE, soE, hE, hEsub, hEle⟩ := ih h sA e hA
            rw [List.foldl_cons,
              show jsonStepArr n h (some (sA, parts)) e
                = some (sE, parts ++ [soE.getD "null"]) from by
                simp [jsonStepArr, hE]]
            obtain ⟨sB, pB, hB, hBsub, hBle⟩ := ihe sE _ (by omega)
            exact ⟨sB, pB, hB, fun x hx => hBsub x (hEsub x hx), by omega⟩
      have hfold_obj : ∀ (fields : List (String × JSVal)) (sA : List Nat)
          (parts : List String), unseenCount h sA < n →
          ∃ sB pB, fields.foldl (jsonStepObj n h) (some (sA, parts))
            = some (sB, pB)
            ∧ (∀ x ∈ sA, x ∈ sB) ∧ unseenCount h sB ≤ unseenCount h sA := by
        intro fields
        induction fields with
        | nil => intro sA parts hA; exact ⟨sA, parts, rfl, fun x hx => hx,
            Nat.le_refl _⟩
        | cons kv rest ihe =>
            intro sA parts hA
            obtain ⟨sE, soE, hE, hEsub, hEle⟩ := ih h sA kv.2 hA
            cases soE with
            | none =>
                rw [List.foldl_cons,
                  show jsonStepObj n h (some (sA, parts)) kv
                    = some (sE, parts) from by simp [jsonStepObj, hE]]
                obtain ⟨sB, pB, hB, hBsub, hBle⟩ := ihe sE _ (by omega)
                exact ⟨sB, pB, hB, fun x hx => hBsub x (hEsub x hx), by omega⟩
            | some str =>
                rw [List.foldl_cons,
                  show jsonStepObj n h (some (sA, parts)) kv
                    = some (sE, parts ++ [quoteJSON kv.1 ++ ":" ++ str])
                    from by simp [jsonStepObj, hE]]
                obtain ⟨sB, pB, hB, hBsub, hBle⟩ := ihe sE _ (by omega)
                exact ⟨sB, pB, hB, fun x hx => hBsub x (hEsub x hx), by omega⟩
      by_cases hcond : (isObjectLiteralH h v || isArrayH h v) = true
      · obtain ⟨i, rfl⟩ : ∃ i, v = JSVal.ref i := by
          cases v <;> simp [isObjectLiteralH, isArrayH] at hcond <;>
            exact ⟨_, rfl⟩
        cases hin : seen.contains i with
        | true =>
            exact ⟨seen, some (quoteJSON "[Circular]"),
              jsonFuel_circular n h seen i hcond hin, fun x hx => hx,
              Nat.le_refl _⟩
        | false =>
            have hnmem : i ∉ seen := by
              intro hc
              have h2 : seen.contains i = true := List.elem_iff.mpr hc
              rw [h2] at hin
              exact Bool.noConfusion hin
            cases hl : lookupH h i with
            | none =>
                exfalso
                cases v2 : isObjectLiteralH h (.ref i) <;>
                  simp [isObjectLiteralH, isArrayH, hl] at hcond
            | some node =>
                obtain ⟨content, fr⟩ := node
                have hdec : unseenCount h (seen ++ [i]) < unseenCount h seen :=
                  unseenCount_append_lt h seen i ⟨content, fr⟩ hl hnmem
                cases content with
                | regexp =>
                    exfalso
                    simp [isObjectLiteralH, isArrayH, hl] at hcond
                | arr elems =>
                    obtain ⟨sB, pB, hB, hBsub, hBle⟩ :=
                      hfold_arr elems (seen ++ [i]) [] (by omega)
                    refine ⟨sB, some ("[" ++ joinComma pB ++ "]"), ?_, ?_, ?_⟩
                    · rw [jsonFuel_arr_eq n h seen i elems fr hl hin, hB]
                    · intro x hx
                      exact hBsub x (by simp [hx])
                    · omega
                | obj fields =>
                    obtain ⟨sB, pB, hB, hBsub, hBle⟩ :=
                      hfold_obj fields (seen ++ [i]) [] (by omega)
                    refine ⟨sB, some ("\x7b" ++ joinComma pB ++ "\x7d"),
                      ?_, ?_, ?_⟩
                    · rw [jsonFuel_obj_eq n h seen i fields fr hl hin, hB]
                    · intro x hx
                      exact hBsub x (by simp [hx])
                    · omega
      · have hcond2 : (isObjectLiteralH h v || isArrayH h v) = false := by
          cases hx : (isObjectLiteralH h v || isArrayH h v)
          · rfl
          · exact absurd hx hcond
        cases v with
        | vnull =>
            exact ⟨seen, some "null", by simp [jsonFuel, hcond2],
              fun x hx => hx, Nat.le_refl _⟩
        | vundef =>
            exact ⟨seen, none, by simp [jsonFuel, hcond2],
              fun x hx => hx, Nat.le_refl _⟩
        | vbool b =>
            exact ⟨seen, some (if b then "true" else "false"),
              by simp [jsonFuel, hcond2], fun x hx => hx, Nat.le_refl _⟩
        | vnum m =>
            exact ⟨seen, some (toString m), by simp [jsonFuel, hcond2],
              fun x hx => hx, Nat.le_refl _⟩
        | vstr s =>
            exact ⟨seen, some (quoteJSON s), by simp [jsonFuel, hcond2],
              fun x hx => hx, Nat.le_refl _⟩
        | ref i =>
            cases hl : lookupH h i with
            | none =>
                exact ⟨seen, none,
                  by simp [jsonFuel, hcond2, hl], fun x hx => hx,
                  Nat.le_refl _⟩
            | some node =>
                obtain ⟨content, fr⟩ := node
                cases content with
                | regexp =>
                    exact ⟨seen, some ("\x7b\x7d"),
                      by simp [jsonFuel, hcond2, hl], fun x hx => hx,
                      Nat.le_refl _⟩
                | arr elems =>
                    exfalso
                    simp [isObjectLiteralH, isArrayH, hl] at hcond2
                | obj fields =>
                    exfalso
                    simp [isObjectLiteralH, isArrayH, hl] at hcond2

/-- C7.  `safeStringify` never throws on circular values: with fuel above
the heap size the traversal always completes; any mapping/sequence node
already on the shared `seen` list serializes as the literal marker
`"[Circular]"`; and on an object containing a self-reference the result
is a string containing the substring `[Circular]`. -/
theorem claim_C7_safeStringify :
    (∀ (h : Heap) (v : JSVal) (fuel : Nat), h.length < fuel →
        ∃ out, safeStringify fuel h v = some out)
    ∧ (∀ (n : Nat) (h : Heap) (seen : List Nat) (i : Nat),
        (isObjectLiteralH h (.ref i) || isArrayH h (.ref i)) = true →
        seen.contains i = true →
        jsonFuel (n + 1) h seen (.ref i)
          = some (seen, some (quoteJSON "[Circular]")))
    ∧ safeStringify 10 [(0, ⟨.obj [("a", .ref 0)], false⟩)] (.ref 0)
      = some (some "\x7b\"a\":\"[Circular]\"\x7d")
    ∧ (∃ pre post, "\x7b\"a\":\"[Circular]\"\x7d"
        = pre ++ "[Circular]" ++ post) := by
  refine ⟨?_, jsonFuel_circular, by rfl, ⟨"\x7b\"a\":\"", "\"\x7d", by rfl⟩⟩
  intro h v fuel hfuel
  have hcnt : unseenCount h [] < fuel := by
    have : unseenCount h [] ≤ h.length := List.countP_le_length _
    omega
  obtain ⟨sn, so, hrun, _, _⟩ := jsonFuel_adequate fuel h [] v hcnt
  exact ⟨so, by simp [safeStringify, hrun]⟩

/-- Witness for C7: totality applied to the concrete self-referential
heap, and the circular-marker equation applied at a seen node. -/
theorem claim_C7_safeStringify_witness :
    (∃ out, safeStringify 10 [(0, ⟨.obj [("a", .ref 0)], false⟩)] (.ref 0)
      = some out)
    ∧ jsonFuel 5 [(0, ⟨.obj [("a", .ref 0)], false⟩)] [0] (.ref 0)
      = some ([0], some (quoteJSON "[Circular]")) :=
  ⟨claim_C7_safeStringify.1 [(0, ⟨.obj [("a", .ref 0)], false⟩)] (.ref 0) 10
      (by decide),
   claim_C7_safeStringify.2.1 4 [(0, ⟨.obj [("a", .ref 0)], false⟩)] [0] 0
     (by decide) (by decide)⟩

/-! ## C3: deepFreeze — termination, same reference, freeze guarantee

Loop invariants of `freezeLoop`, proved by its functional induction
principle: node contents are preserved and the frozen mark is monotone;
every queued id ends up frozen; the enumerable own children of every
queued or newly-frozen node end up frozen.  From these: the freeze
guarantee restricted to chains of initially-unfrozen nodes, idempotence,
and the counterexample showing the unrestricted guarantee fails. -/


theorem freezeLoop_nil (h : Heap) : freezeLoop h [] = h := by
  rw [freezeLoop]

theorem freezeLoop_cons (h : Heap) (i : Nat) (rest : List Nat) :
    freezeLoop h (i :: rest)
      = freezeLoop (setFrozen h i) (rest ++ freezeChildren (setFrozen h i) i) := by
  rw [freezeLoop]

theorem setFrozen_cons2 (pk : Nat) (pn : Node) (rest : Heap) (i : Nat) :
    setFrozen ((pk, pn) :: rest) i
      = (pk, if pk = i then ⟨pn.content, true⟩ else pn) :: setFrozen rest i := by
  by_cases hpi : pk = i <;> simp [setFrozen, hpi]

theorem lookupH_setFrozen (h : Heap) (i j : Nat) :
    lookupH (setFrozen h i) j
      = (lookupH h j).map (fun n => if j = i then ⟨n.content, true⟩ else n) := by
  induction h with
  | nil => rfl
  | cons p rest ih =>
      obtain ⟨pk, pn⟩ := p
      rw [setFrozen_cons2,
        show lookupH ((pk, if pk = i then ⟨pn.content, true⟩ else pn)
              :: setFrozen rest i) j
          = (if pk = j then some (if pk = i then ⟨pn.content, true⟩ else pn)
              else lookupH (setFrozen rest i) j) from rfl,
        show lookupH ((pk, pn) :: rest) j
          = (if pk = j then some pn else lookupH rest j) from rfl]
      by_cases hpj : pk = j
      · subst hpj
        rw [if_pos rfl, if_pos rfl]
        by_cases hpi : pk = i
        · subst hpi
          simp
        · simp [hpi, Ne.symm hpi, fun hc : pk = i => hpi hc]
      · rw [if_neg hpj, if_neg hpj]
        exact ih

theorem isUnfrozenAt_setFrozen_false (h : Heap) (i j : Nat)
    (hj : isUnfrozenAt h j = false) : isUnfrozenAt (setFrozen h i) j = false := by
  unfold isUnfrozenAt at hj ⊢
  rw [lookupH_setFrozen]
  cases hl : lookupH h j with
  | none => simp
  | some n =>
      rw [hl] at hj
      simp at hj
      by_cases hji : j = i
      · simp [hji]
      · simp [hji, hj]

theorem isUnfrozenAt_setFrozen_self (h : Heap) (i : Nat) :
    isUnfrozenAt (setFrozen h i) i = false := by
  simp only [isUnfrozenAt, lookupH_setFrozen]
  cases hl : lookupH h i <;> simp

theorem isUnfrozenAt_setFrozen_ne (h : Heap) (i j : Nat) (hne : j ≠ i) :
    isUnfrozenAt (setFrozen h i) j = isUnfrozenAt h j := by
  simp only [isUnfrozenAt, lookupH_setFrozen]
  cases hl : lookupH h j <;> simp [hne]

theorem lookupH_setFrozen_content (h : Heap) (i j : Nat) :
    (lookupH (setFrozen h i) j).map Node.content
      = (lookupH h j).map Node.content := by
  rw [lookupH_setFrozen]
  cases hl : lookupH h j with
  | none => rfl
  | some n =>
      by_cases hji : j = i <;> simp [hji]

theorem freezeLoop_content (h : Heap) (q : List Nat) :
    ∀ j, (lookupH (freezeLoop h q) j).map Node.content
      = (lookupH h j).map Node.content := by
  induction h, q using freezeLoop.induct with
  | case1 h => intro j; rw [freezeLoop_nil]
  | case2 h i rest h2 ih =>
      intro j
      rw [freezeLoop_cons]
      have ih2 := ih
      simp only [show h2 = setFrozen h i from rfl] at ih2
      rw [ih2 j]
      exact lookupH_setFrozen_content h i j

theorem freezeLoop_not_unfrozen (h : Heap) (q : List Nat) :
    ∀ j, isUnfrozenAt h j = false → isUnfrozenAt (freezeLoop h q) j = false := by
  induction h, q using freezeLoop.induct with
  | case1 h => intro j hj; rwa [freezeLoop_nil]
  | case2 h i rest h2 ih =>
      intro j hj
      rw [freezeLoop_cons]
      have ih2 := ih
      simp only [show h2 = setFrozen h i from rfl] at ih2
      exact ih2 j (isUnfrozenAt_setFrozen_false h i j hj)

theorem setFrozen_any_self (h : Heap) (i : Nat) :
    (setFrozen h i).any (fun p => p.1 = i && !p.2.frozen) = false := by
  induction h with
  | nil => rfl
  | cons p rest ih =>
      obtain ⟨pk, pn⟩ := p
      rw [setFrozen_cons2]
      simp only [List.any_cons, Bool.or_eq_false_iff]
      refine ⟨?_, ih⟩
      by_cases hpi : pk = i <;> simp [hpi]

theorem setFrozen_any_mono (h : Heap) (i j : Nat)
    (hx : h.any (fun p => p.1 = j && !p.2.frozen) = false) :
    (setFrozen h i).any (fun p => p.1 = j && !p.2.frozen) = false := by
  induction h with
  | nil => rfl
  | cons p rest ih =>
      obtain ⟨pk, pn⟩ := p
      rw [setFrozen_cons2]
      simp only [List.any_cons, Bool.or_eq_false_iff] at hx ⊢
      obtain ⟨hp, hrest⟩ := hx
      refine ⟨?_, ih hrest⟩
      by_cases hpi : pk = i
      · simp [hpi]
      · simpa [hpi] using hp

theorem freezeLoop_any_mono (h : Heap) (q : List Nat) :
    ∀ j, h.any (fun p => p.1 = j && !p.2.frozen) = false →
      (freezeLoop h q).any (fun p => p.1 = j && !p.2.frozen) = false := by
  induction h, q using freezeLoop.induct with
  | case1 h => intro j hj; rwa [freezeLoop_nil]
  | case2 h i rest h2 ih =>
      intro j hj
      rw [freezeLoop_cons]
      have ih2 := ih
      simp only [show h2 = setFrozen h i from rfl] at ih2
      exact ih2 j (setFrozen_any_mono h i j hj)

theorem freezeLoop_mem_any (h : Heap) (q : List Nat) :
    ∀ j ∈ q, (freezeLoop h q).any (fun p => p.1 = j && !p.2.frozen) = false := by
  induction h, q using freezeLoop.induct with
  | case1 h => intro j hj; simp at hj
  | case2 h i rest h2 ih =>
      intro j hj
      rw [freezeLoop_cons]
      have ih2 := ih
      simp only [show h2 = setFrozen h i from rfl] at ih2
      rcases List.mem_cons.mp hj with hji | hjr
      · subst hji
        exact freezeLoop_any_mono _ _ j (setFrozen_any_self h j)
      · exact ih2 j (List.mem_append_left _ hjr)

theorem freezeLoop_mem_not_unfrozen (h : Heap) (q : List Nat)
    (j : Nat) (hj : j ∈ q) :
    isUnfrozenAt (freezeLoop h q) j = false :=
  isUnfrozenAt_false_of_not_any _ j (freezeLoop_mem_any h q j hj)

/-- `c` is the id of an enumerable own property value of node `i`: the
edges the `for (const key in obj)` loop of `deepFreeze` walks. -/
def refChildH (h : Heap) (i c : Nat) : Prop :=
  ∃ n, lookupH h i = some n ∧ JSVal.ref c ∈ propValues n.content

theorem isFrozenVal_ref (h : Heap) (c : Nat) :
    isFrozenVal h (.ref c) = !isUnfrozenAt h c := by
  simp only [isFrozenVal, isUnfrozenAt]
  cases lookupH h c <;> simp

theorem refChildH_setFrozen (h : Heap) (x i c : Nat)
    (hc : refChildH h i c) : refChildH (setFrozen h x) i c := by
  obtain ⟨n, hl, hm⟩ := hc
  refine ⟨if i = x then ⟨n.content, true⟩ else n, ?_, ?_⟩
  · rw [lookupH_setFrozen, hl]
    rfl
  · by_cases hix : i = x <;> simp [hix, hm]

theorem mem_freezeChildren_of (h : Heap) (i c : Nat) (n : Node)
    (hl : lookupH h i = some n) (hm : JSVal.ref c ∈ propValues n.content)
    (hf : isFrozenVal h (.ref c) = false) : c ∈ freezeChildren h i := by
  unfold freezeChildren
  rw [hl]
  exact List.mem_filterMap.mpr
    ⟨.ref c, List.mem_filter.mpr ⟨hm, by simp [typeofIsObject, hf]⟩, rfl⟩

theorem freezeLoop_queue_children (h : Heap) (q : List Nat) :
    ∀ j c, j ∈ q → refChildH h j c →
      isUnfrozenAt (freezeLoop h q) c = false := by
  induction h, q using freezeLoop.induct with
  | case1 h => intro j c hj _; simp at hj
  | case2 h i rest h2 ih =>
      intro j c hj hrc
      rw [freezeLoop_cons]
      have ih2 := ih
      simp only [show h2 = setFrozen h i from rfl] at ih2
      have hrc2 : refChildH (setFrozen h i) j c := refChildH_setFrozen h i j c hrc
      rcases List.mem_cons.mp hj with hji | hjr
      · subst hji
        obtain ⟨n2, hl2, hm2⟩ := hrc2
        cases hcf : isFrozenVal (setFrozen h j) (.ref c) with
        | true =>
            have hcu : isUnfrozenAt (setFrozen h j) c = false := by
              rw [isFrozenVal_ref] at hcf
              cases hu : isUnfrozenAt (setFrozen h j) c
              · rfl
              · rw [hu] at hcf; simp at hcf
            exact freezeLoop_not_unfrozen _ _ c hcu
        | false =>
            have hcm : c ∈ freezeChildren (setFrozen h j) j :=
              mem_freezeChildren_of _ j c n2 hl2 hm2 hcf
            exact freezeLoop_mem_not_unfrozen _ _ c (List.mem_append_right _ hcm)
      · exact ih2 j c (List.mem_append_left _ hjr) hrc2

theorem freezeLoop_newly_frozen_children (h : Heap) (q : List Nat) :
    ∀ i c, isUnfrozenAt h i = true →
      isUnfrozenAt (freezeLoop h q) i = false →
      refChildH h i c →
      isUnfrozenAt (freezeLoop h q) c = false := by
  induction h, q using freezeLoop.induct with
  | case1 h =>
      intro i c hu hf _
      rw [freezeLoop_nil] at hf
      rw [hu] at hf
      exact absurd hf (by simp)
  | case2 h x rest h2 ih =>
      intro i c hu hf hrc
      rw [freezeLoop_cons] at hf ⊢
      have ih2 := ih
      simp only [show h2 = setFrozen h x from rfl] at ih2
      have hrc2 : refChildH (setFrozen h x) i c := refChildH_setFrozen h x i c hrc
      cases hu2 : isUnfrozenAt (setFrozen h x) i with
      | true => exact ih2 i c hu2 hf hrc2
      | false =>
          have hxi : x = i := by
            by_contra hne
            rw [isUnfrozenAt_setFrozen_ne h x i (fun hc => hne hc.symm)] at hu2
            rw [hu] at hu2
            exact absurd hu2 (by simp)
          subst hxi
          obtain ⟨n2, hl2, hm2⟩ := hrc2
          cases hcf : isFrozenVal (setFrozen h x) (.ref c) with
          | true =>
              have hcu : isUnfrozenAt (setFrozen h x) c = false := by
                rw [isFrozenVal_ref] at hcf
                cases hcu2 : isUnfrozenAt (setFrozen h x) c
                · rfl
                · rw [hcu2] at hcf; simp at hcf
              exact freezeLoop_not_unfrozen _ _ c hcu
          | false =>
              have hcm : c ∈ freezeChildren (setFrozen h x) x :=
                mem_freezeChildren_of _ x c n2 hl2 hm2 hcf
              exact freezeLoop_mem_not_unfrozen _ _ c (List.mem_append_right _ hcm)

theorem refChildH_freezeLoop_rev (h : Heap) (q : List Nat) (i c : Nat)
    (hc : refChildH (freezeLoop h q) i c) : refChildH h i c := by
  obtain ⟨n, hl, hm⟩ := hc
  have hcont := freezeLoop_content h q i
  rw [hl] at hcont
  cases hl0 : lookupH h i with
  | none =>
      rw [hl0] at hcont
      simp at hcont
  | some n0 =>
      rw [hl0] at hcont
      simp at hcont
      rw [hcont] at hm
      exact ⟨n0, hl0, hm⟩

theorem freezeChildren_freezeLoop_nil (h : Heap) (r : Nat) :
    freezeChildren (freezeLoop h [r]) r = [] := by
  cases hl : lookupH (freezeLoop h [r]) r with
  | none =>
      unfold freezeChildren
      simp only [hl]
  | some n =>
      have hall : ∀ v ∈ propValues n.content,
          ¬((typeofIsObject v && !isFrozenVal (freezeLoop h [r]) v) = true) := by
        intro v hv
        cases v with
        | ref c =>
            have hrc0 : refChildH h r c :=
              refChildH_freezeLoop_rev h [r] r c ⟨n, hl, hv⟩
            have hcu := freezeLoop_queue_children h [r] r c (by simp) hrc0
            simp [typeofIsObject, isFrozenVal_ref, hcu]
        | vnull => simp [typeofIsObject, isFrozenVal]
        | vundef => simp [typeofIsObject]
        | vbool b => simp [typeofIsObject]
        | vnum m => simp [typeofIsObject]
        | vstr s => simp [typeofIsObject]
      unfold freezeChildren
      simp only [hl]
      rw [List.filter_eq_nil_iff.mpr hall]
      rfl

theorem freezeLoop_idem (h : Heap) (r : Nat) :
    freezeLoop (freezeLoop h [r]) [r] = freezeLoop h [r] := by
  rw [freezeLoop_cons,
    setFrozen_eq_of_not_any _ r (freezeLoop_mem_any h [r] r (by simp)),
    freezeChildren_freezeLoop_nil,
    show (([] : List Nat) ++ []) = [] from rfl,
    freezeLoop_nil]

/-- Reachability from `r` along enumerable own property edges whose
intermediate nodes are unfrozen at call time (the root is dequeued
unconditionally). -/
inductive ReachTU (h : Heap) (r : Nat) : Nat → Prop where
  | root : ReachTU h r r
  | step (i j : Nat) : ReachTU h r i → isUnfrozenAt h i = true →
      refChildH h i j → ReachTU h r j

/-- Unrestricted reachability from `r` along enumerable own property
edges, the reading of the claim. -/
inductive ReachAll (h : Heap) (r : Nat) : Nat → Prop where
  | root : ReachAll h r r
  | step (i j : Nat) : ReachAll h r i → refChildH h i j → ReachAll h r j

theorem freezeLoop_reachTU (h : Heap) (r j : Nat)
    (hr : ReachTU h r j) : isUnfrozenAt (freezeLoop h [r]) j = false := by
  induction hr with
  | root => exact freezeLoop_mem_not_unfrozen h [r] r (by simp)
  | step i j hri hu hrc ih =>
      exact freezeLoop_newly_frozen_children h [r] i j hu ih hrc

/-- **C3** (amended).  `deepFreeze` (1) returns the very same reference it
was given; (2) terminates even on a cyclic graph (the self-referential
object is evaluated concretely; totality of the embedding is the
termination argument itself); (3) freezes every node reachable from the
root through a chain of initially-unfrozen nodes; and (4) is idempotent:
a second call on the result changes nothing (and, being total, never
throws).  The claim's unrestricted clause — EVERY reachable node ends up
frozen — is false: a pre-frozen interior node cuts the traversal off
(see the counterexample). -/
theorem claim_C3_deepFreeze :
    (∀ (h : Heap) (v : JSVal), (deepFreeze h v).2 = v)
    ∧ deepFreeze [(0, ⟨.obj [("a", .ref 0)], false⟩)] (.ref 0)
        = ([(0, ⟨.obj [("a", .ref 0)], true⟩)], .ref 0)
    ∧ (∀ (h : Heap) (r j : Nat), ReachTU h r j →
        isUnfrozenAt (deepFreeze h (.ref r)).1 j = false)
    ∧ (∀ (h : Heap) (r : Nat),
        deepFreeze (deepFreeze h (.ref r)).1 (.ref r) = deepFreeze h (.ref r)) := by
  refine ⟨?_, ?_, ?_, ?_⟩
  · intro h v
    cases v <;> rfl
  · show (freezeLoop [(0, ⟨.obj [("a", .ref 0)], false⟩)] [0], JSVal.ref 0) = _
    rw [freezeLoop_cons,
      show setFrozen [(0, ⟨.obj [("a", .ref 0)], false⟩)] 0
        = [(0, ⟨.obj [("a", .ref 0)], true⟩)] from rfl,
      show freezeChildren [(0, ⟨.obj [("a", .ref 0)], true⟩)] 0 = [] from rfl,
      show (([] : List Nat) ++ []) = [] from rfl,
      freezeLoop_nil]
  · intro h r j hr
    exact freezeLoop_reachTU h r j hr
  · intro h r
    show (freezeLoop (freezeLoop h [r]) [r], JSVal.ref r) = _
    rw [freezeLoop_idem]
    rfl

/-- Counterexample to C3's unrestricted clause: node 2 is reachable from
the root 0 via enumerable own keys (0 → 1 → 2), but node 1 is frozen
before the call, so node 1's children are never enqueued and node 2
stays unfrozen. -/
theorem claim_C3_counterexample :
    ReachAll [(0, ⟨.obj [("a", .ref 1)], false⟩),
        (1, ⟨.obj [("b", .ref 2)], true⟩), (2, ⟨.obj [], false⟩)] 0 2
    ∧ isUnfrozenAt
        (deepFreeze [(0, ⟨.obj [("a", .ref 1)], false⟩),
          (1, ⟨.obj [("b", .ref 2)], true⟩), (2, ⟨.obj [], false⟩)]
          (.ref 0)).1 2 = true := by
  constructor
  · exact .step 1 2 (.step 0 1 .root ⟨⟨.obj [("a", .ref 1)], false⟩, rfl, by decide⟩)
      ⟨⟨.obj [("b", .ref 2)], true⟩, rfl, by decide⟩
  · show isUnfrozenAt (freezeLoop [(0, ⟨.obj [("a", .ref 1)], false⟩),
        (1, ⟨.obj [("b", .ref 2)], true⟩), (2, ⟨.obj [], false⟩)] [0]) 2 = true
    rw [freezeLoop_cons,
      show setFrozen [(0, ⟨.obj [("a", .ref 1)], false⟩),
          (1, ⟨.obj [("b", .ref 2)], true⟩), (2, ⟨.obj [], false⟩)] 0
        = [(0, ⟨.obj [("a", .ref 1)], true⟩),
          (1, ⟨.obj [("b", .ref 2)], true⟩), (2, ⟨.obj [], false⟩)] from rfl,
      show freezeChildren [(0, ⟨.obj [("a", .ref 1)], true⟩),
          (1, ⟨.obj [("b", .ref 2)], true⟩), (2, ⟨.obj [], false⟩)] 0 = [] from rfl,
      show (([] : List Nat) ++ []) = [] from rfl,
      freezeLoop_nil]
    decide

/-- Witness for C3: the restricted freeze guarantee applied to a concrete
two-node chain of initially-unfrozen objects. -/
theorem claim_C3_deepFreeze_witness :
    ReachTU [(0, ⟨.obj [("a", .ref 1)], false⟩), (1, ⟨.obj [], false⟩)] 0 1
    ∧ isUnfrozenAt
        (deepFreeze [(0, ⟨.obj [("a", .ref 1)], false⟩), (1, ⟨.obj [], false⟩)]
          (.ref 0)).1 1 = false :=
  have hr : ReachTU [(0, ⟨.obj [("a", .ref 1)], false⟩), (1, ⟨.obj [], false⟩)] 0 1 :=
    .step 0 1 .root (by decide)
      ⟨⟨.obj [("a", .ref 1)], false⟩, rfl, by decide⟩
  ⟨hr, claim_C3_deepFreeze.2.2.1
    [(0, ⟨.obj [("a", .ref 1)], false⟩), (1, ⟨.obj [], false⟩)] 0 1 hr⟩

end ObjectUtil
